import Mathlib

/-!
Shallow embedding of the citation-resolution core of the `legel-mcp`
repository (`src/script/get_signal_txt.py` and
`src/src/taiwan_law_mcp/law_client.py`), together with theorems checking
the natural-language specification's claims against it.

Strings are modelled as Lean `String` / `List Char`.  Python's `re` module
is modelled by a small backtracking matcher specialised to the concrete
patterns appearing in `REF_PATTERNS` (greedy quantifiers with give-back,
left-preference alternation, leftmost non-overlapping `finditer` scanning).
Python `None`-able values become `Option`, Python exceptions become
`Except String`, and Python truthiness of optional strings / ints is made
explicit (`pyTruthyOS`, `pyTruthyON`).
-/

/-- Python `\s` / `str.strip` whitespace, restricted to the code points that
can actually occur in the statute text this program processes (ASCII
whitespace, NBSP, NEL, the Unicode space block and the ideographic space). -/
def isPySpace (c : Char) : Bool :=
  c = ' ' || c = '\t' || c = '\n' || c = '\r' ||
  c.toNat = 11 || c.toNat = 12 ||
  c.toNat = 0x85 || c.toNat = 0xa0 ||
  (0x2000 ≤ c.toNat && c.toNat ≤ 0x200a) ||
  c.toNat = 0x2028 || c.toNat = 0x2029 || c.toNat = 0x202f ||
  c.toNat = 0x205f || c.toNat = 0x3000

/-- Python `str.strip()` on a character list. -/
def pyStrip (cs : List Char) : List Char :=
  ((cs.dropWhile isPySpace).reverse.dropWhile isPySpace).reverse

/-- Python `re.sub(r"\s+", " ", txt)`: every maximal whitespace run becomes a
single ASCII space.  The boolean argument records whether the previous
character was part of a whitespace run. -/
def normWSAux (inRun : Bool) : List Char → List Char
  | [] => []
  | c :: cs =>
    if isPySpace c then
      if inRun then normWSAux true cs else ' ' :: normWSAux true cs
    else c :: normWSAux false cs

/-- Python `re.sub(r"\s+", " ", txt)` on a `String`. -/
def normWS (s : String) : String :=
  String.mk (normWSAux false s.toList)

/-- The `ZH_DIGITS` table of `get_signal_txt.py` (note that it contains the
variant digit 兩 with value 2, in addition to 零〇一二三四五六七八九). -/
def ZH_DIGITS (c : Char) : Option Nat :=
  if c = '零' then some 0 else if c = '〇' then some 0 else
  if c = '一' then some 1 else if c = '二' then some 2 else
  if c = '兩' then some 2 else if c = '三' then some 3 else
  if c = '四' then some 4 else if c = '五' then some 5 else
  if c = '六' then some 6 else if c = '七' then some 7 else
  if c = '八' then some 8 else if c = '九' then some 9 else none

/-- The `ZH_UNITS` table of `get_signal_txt.py`. -/
def ZH_UNITS (c : Char) : Option Nat :=
  if c = '十' then some 10 else if c = '百' then some 100 else none

/-- The scanning loop of `zh_to_int` (lines 53-69 of `get_signal_txt.py`):
a digit overwrites `num`, a unit adds `(num or 1) * unit` to `total` and
resets `num`, any other character aborts with `None`; at the end the
remaining `num` is added. -/
def zhLoop : List Char → Nat → Nat → Option Nat
  | [], total, num => some (total + num)
  | c :: cs, total, num =>
    match ZH_DIGITS c with
    | some d => zhLoop cs total d
    | none =>
      match ZH_UNITS c with
      | some u => zhLoop cs (total + (if num = 0 then 1 else num) * u) 0
      | none => none

/-- Decimal value of an ASCII digit list (Python `int(s)` on a digit string). -/
def pyInt10 (cs : List Char) : Nat :=
  cs.foldl (fun a c => a * 10 + (c.toNat - 48)) 0

/-- The function `zh_to_int` of `get_signal_txt.py`.  A `None` argument in
Python is coalesced to `""` by `(s or "")` before stripping; call sites with
optional strings therefore pass `(o.getD "")`.  Python's Unicode-wide
`str.isdigit` / `int` are modelled on ASCII digits, which covers every string
the program can pass here (regex captures are CJK characters or ASCII
digits). -/
def zh_to_int (s : String) : Option Nat :=
  let cs := pyStrip s.toList
  if cs = [] then none
  else if cs.all Char.isDigit then some (pyInt10 cs)
  else zhLoop cs 0 0

/-- Python `re.fullmatch(r"\d+(?:-\d+)?", s)` as a boolean. -/
def fullmatchArt (cs : List Char) : Bool :=
  let d1 := cs.takeWhile Char.isDigit
  let r := cs.drop d1.length
  !d1.isEmpty &&
    (r.isEmpty ||
      (match r with
       | '-' :: r2 => !r2.isEmpty && r2.all Char.isDigit
       | _ => false))

/-- The function `normalize_art` of `get_signal_txt.py`: a string already of
shape `\d+(-\d+)?` is kept (stripped), otherwise it goes through
`zh_to_int` and the decimal rendering of the result is returned. -/
def normalize_art (s : String) : Option String :=
  let cs := pyStrip s.toList
  if fullmatchArt cs then some (String.mk cs)
  else (zh_to_int (String.mk cs)).map (fun v => toString v)

/-- Python `int(s)` on a (possibly signed) decimal string; any other input
raises `ValueError` in Python, modelled as `none` (the caller
`compute_prev_flno` wraps the call in `try/except`). -/
def pyIntParse (s : List Char) : Option Int :=
  let cs := pyStrip s
  match cs with
  | '-' :: ds => if !ds.isEmpty && ds.all Char.isDigit then some (-(pyInt10 ds : Int)) else none
  | '+' :: ds => if !ds.isEmpty && ds.all Char.isDigit then some ((pyInt10 ds : Int)) else none
  | ds => if !ds.isEmpty && ds.all Char.isDigit then some ((pyInt10 ds : Int)) else none

/-- The function `compute_prev_flno` of `get_signal_txt.py`: "16-1" ↦ "16",
"16" ↦ "15", "1" ↦ "1"; any parse failure is caught and returns `None`. -/
def compute_prev_flno (main_flno : String) : Option String :=
  let cs := main_flno.toList
  if '-' ∈ cs then
    match pyIntParse (cs.takeWhile (fun c => c ≠ '-')),
          pyIntParse ((cs.dropWhile (fun c => c ≠ '-')).drop 1) with
    | some major, some minor =>
      some (if minor > 0 then toString major
            else if major > 1 then toString (major - 1) else toString major)
    | _, _ => none
  else
    match pyIntParse cs with
    | some m => some (if m > 1 then toString (m - 1) else toString m)
    | none => none

/-- Python truthiness of an optional string (`None` and `""` are falsy). -/
def pyTruthyOS (o : Option String) : Bool :=
  match o with
  | none => false
  | some s => !s.isEmpty

/-- Python truthiness of an optional natural (`None` and `0` are falsy). -/
def pyTruthyON (o : Option Nat) : Bool :=
  match o with
  | none => false
  | some n => n != 0

/-!
## A small backtracking matcher for the concrete `REF_PATTERNS` regexes

Each Python pattern is compiled by hand into a continuation-passing matcher
over `List Char`.  A successful match returns its named capture groups, the
matched text (`m.group(0)`) and the remaining input.  Greedy `+` repetition
over a character class backtracks by giving characters back longest-first
(`goPlus`), and the two-branch alternation of the article group tries the
CJK branch (with all its give-back positions) before the digit branch,
exactly like Python's engine.  The `\s*` separators are matched as maximal
runs: every token following a `\s*` in these patterns is a non-whitespace
character, so no backtracking is lost.
-/

/-- Result of one regex match: named groups (value `none` would mean the
group did not participate), the matched span `m.group(0)`, and the rest of
the input after the match. -/
structure MRes where
  groups : List (String × Option String)
  hit : List Char
  rest : List Char

/-- A matcher continuation: input position to optional match. -/
abbrev MK := List Char → Option MRes

/-- Prepend consumed characters to the matched span of a result. -/
def prependHit (p : List Char) (r : Option MRes) : Option MRes :=
  r.map (fun m => { m with hit := p ++ m.hit })

/-- Match one literal character, then continue. -/
def pChar (c : Char) (k : MK) : MK := fun s =>
  match s with
  | [] => none
  | c0 :: s0 => if c0 = c then prependHit [c] (k s0) else none

/-- Match a literal character sequence, then continue. -/
def pStr (cs : List Char) (k : MK) : MK :=
  cs.foldr pChar k

/-- Greedy optional literal sequence `(?:…)?`: try with it first, then
without (Python's preference for a greedy optional group). -/
def pOptStr (cs : List Char) (k : MK) : MK := fun s =>
  match pStr cs k s with
  | some r => some r
  | none => k s

/-- Length of the maximal prefix run of characters satisfying `p`. -/
def maxRun (p : Char → Bool) : List Char → Nat
  | [] => 0
  | c :: cs => if p c then maxRun p cs + 1 else 0

/-- Match `\s*` as the maximal whitespace run, then continue. -/
def pWs (k : MK) : MK := fun s =>
  let n := maxRun isPySpace s
  prependHit (s.take n) (k (s.drop n))

/-- Give-back loop for greedy `+` repetition: try consuming `n` characters
of the run, and on failure of the continuation retry with one character
fewer, down to one (a `+` must consume at least one character). -/
def goPlus (k : List Char → MK) (s : List Char) : Nat → Option MRes
  | 0 => none
  | n + 1 =>
    match prependHit (s.take (n + 1)) (k (s.take (n + 1)) (s.drop (n + 1))) with
    | some r => some r
    | none => goPlus k s n

/-- Greedy `[class]+` with capture: consume the longest feasible non-empty
prefix of `p`-characters and pass it to the continuation. -/
def pPlusCap (p : Char → Bool) (k : List Char → MK) : MK := fun s =>
  goPlus k s (maxRun p s)

/-- The CJK character class `[一-龥]` of the article group. -/
def isCJK (c : Char) : Bool :=
  0x4e00 ≤ c.toNat && c.toNat ≤ 0x9fa5

/-- The Chinese-numeral class `[一二三四五六七八九十百]` used for
item/clause/sub-item indices. -/
def isZhNum (c : Char) : Bool :=
  c = '一' || c = '二' || c = '三' || c = '四' || c = '五' ||
  c = '六' || c = '七' || c = '八' || c = '九' || c = '十' || c = '百'

/-- The digit branch `\d+(?:-\d+)?` of the article group, with capture. -/
def pArtNum (kArt : List Char → MK) : MK :=
  pPlusCap Char.isDigit fun ds => fun s =>
    match pChar '-' (pPlusCap Char.isDigit fun ds2 => kArt (ds ++ '-' :: ds2)) s with
    | some r => some r
    | none => kArt ds s

/-- The article group `[一-龥]+|\d+(?:-\d+)?`: Python tries the CJK
branch (with full backtracking) before the digit branch. -/
def pArt (kArt : List Char → MK) : MK := fun s =>
  match pPlusCap isCJK kArt s with
  | some r => some r
  | none => pArtNum kArt s

/-- End of a pattern: record the captured groups. -/
def pDone (gs : List (String × Option String)) : MK := fun s =>
  some { groups := gs, hit := [], rest := s }

/-- The literal sequence `本法`. -/
def benfa : List Char := ['本', '法']

/-- The shared prefix `(?:本法)?第\s*《art》\s*條` of `REF_PATTERNS[0..6]`;
the continuation receives the captured article token. -/
def pArtPrefix (k : List Char → MK) : MK :=
  pOptStr benfa (pChar '第' (pWs (pArt fun a => pWs (pChar '條' (k a)))))

/-- A sub-unit selector `第\s*《zh+》\s*u` (u one of 項/款/目); the
continuation receives the captured numeral token. -/
def pUnitSel (u : Char) (ky : List Char → MK) : MK :=
  pChar '第' (pWs (pPlusCap isZhNum fun y => pWs (pChar u (ky y))))

/-- Matcher for a range pattern
`(?:本法)?第《A》條第《Y》u至第《Z》u` (`REF_PATTERNS[0]`, `[2]`, `[4]`). -/
def matchRangePat (u : Char) (gA gS gE : String) : MK :=
  pArtPrefix fun a =>
    pWs (pUnitSel u fun y =>
      pWs (pChar '至' (pWs (pUnitSel u fun z =>
        pDone [(gA, some (String.mk a)), (gS, some (String.mk y)),
               (gE, some (String.mk z))]))))

/-- Matcher for a single-unit pattern `(?:本法)?第《A》條第《Y》u`
(`REF_PATTERNS[1]`, `[3]`, `[5]`). -/
def matchSinglePat (u : Char) (gA gY : String) : MK :=
  pArtPrefix fun a =>
    pWs (pUnitSel u fun y =>
      pDone [(gA, some (String.mk a)), (gY, some (String.mk y))])

/-- Matcher for the bare-article pattern `(?:本法)?第《A》條`
(`REF_PATTERNS[6]`). -/
def matchBarePat : MK :=
  pArtPrefix fun a => pDone [("art_only", some (String.mk a))]

/-- `REF_PATTERNS[0]`: 第X條第Y項至第Z項. -/
def matchAt0 : MK := matchRangePat '項' "art_r1" "itemzh_start" "itemzh_end"

/-- `REF_PATTERNS[1]`: 第X條第Y項. -/
def matchAt1 : MK := matchSinglePat '項' "art_r2" "itemzh"

/-- `REF_PATTERNS[2]`: 第X條第Y款至第Z款. -/
def matchAt2 : MK := matchRangePat '款' "art_k1" "kuanzh_start" "kuanzh_end"

/-- `REF_PATTERNS[3]`: 第X條第Y款. -/
def matchAt3 : MK := matchSinglePat '款' "art_k2" "kuanzh"

/-- `REF_PATTERNS[4]`: 第X條第Y目至第Z目. -/
def matchAt4 : MK := matchRangePat '目' "art_m1" "muzh_start" "muzh_end"

/-- `REF_PATTERNS[5]`: 第X條第Y目. -/
def matchAt5 : MK := matchSinglePat '目' "art_m2" "muzh"

/-- `REF_PATTERNS[6]`: 第X條 (bare article). `REF_PATTERNS[7]` (前條…) also
exists in the source but `extract_references` never scans it: its loops index
patterns 0–6 only. -/
def matchAt6 : MK := matchBarePat

/-- Python `finditer` scan: try the matcher at each position left to right;
on a match, resume after it.  The fuel starts at the input length, which
bounds the number of steps since every iteration advances by at least one
character (all `REF_PATTERNS` matches are non-empty; the guard on
`m.rest` is a totality safeguard mirroring Python's advance-by-one rule for
zero-width matches). -/
def finditerAux (k : MK) : Nat → List Char → List MRes
  | 0, _ => []
  | _ + 1, [] => []
  | fuel + 1, c :: s1 =>
    match k (c :: s1) with
    | some m =>
      if m.rest.length < s1.length + 1 then m :: finditerAux k fuel m.rest
      else m :: finditerAux k fuel s1
    | none => finditerAux k fuel s1

/-- Python `pattern.finditer(text)` as a list of matches. -/
def finditer (k : MK) (s : List Char) : List MRes :=
  finditerAux k s.length s

/-!
## `extract_references`

The Python function walks the input lines; for each line it runs seven
match loops (over `REF_PATTERNS[0]` … `REF_PATTERNS[6]`; note that the
loop commented "第X條（不指明層級）" scans `REF_PATTERNS[5]` — the
single-目 pattern — and the loop commented "前條" scans `REF_PATTERNS[6]`
— the bare-article pattern — while `REF_PATTERNS[7]` is never scanned).
Since `add_ref` never influences which spans match, each loop is modelled
as a pure candidate-list computation followed by a fold of `add_ref` over
the concatenated candidates of the line, in source order.

`m.group(name)` raises `IndexError` when `name` is not a group of the
pattern (modelled in `Except`, used where the source can actually hit a
missing name: the "第X條（不指明層級）" loop); for names that are groups of
the scanned pattern it returns the capture, modelled by the total lookup
`mgroupGet`.  `m.groupdict().get(name)` is total in Python and is also
`mgroupGet`.
-/

/-- One line of article text as handed to the resolver: the text and the
`show-number` flag (`numbered`). -/
structure LawLine where
  text : String
  numbered : Bool
deriving DecidableEq

/-- A reference produced by `extract_references`: dict
`{kind, flno, item, kuan, mu, hit}` of the source. -/
structure Ref where
  kind : String
  flno : String
  item : Option Nat
  kuan : Option Nat
  mu : Option Nat
  hit : String
deriving DecidableEq

/-- The deduplication identity `(kind, flno, item, kuan, mu)` used by
`add_ref`. -/
def refKey (r : Ref) : String × String × Option Nat × Option Nat × Option Nat :=
  (r.kind, r.flno, r.item, r.kuan, r.mu)

/-- Accumulator of `extract_references`: the `seen` key set and the output
list `refs`. -/
structure ExtState where
  seen : List (String × String × Option Nat × Option Nat × Option Nat)
  refs : List Ref

/-- The inner helper `add_ref` of `extract_references`: skip a reference
whose identity tuple was already seen, otherwise append it. -/
def add_ref (st : ExtState) (r : Ref) : ExtState :=
  if refKey r ∈ st.seen then st
  else { seen := st.seen ++ [refKey r], refs := st.refs ++ [r] }

/-- Fold `add_ref` over a candidate list. -/
def foldAdd (st : ExtState) (cs : List Ref) : ExtState :=
  cs.foldl add_ref st

/-- Total capture lookup: `m.group(name)` for a `name` that is a group of
the scanned pattern, and `m.groupdict().get(name)` in general. -/
def mgroupGet (m : MRes) (g : String) : Option String :=
  (m.groups.lookup g).bind id

/-- `m.group(name)` in full: raises (`Except.error`) when `name` is not a
group of the pattern. -/
def mgroupE (m : MRes) (g : String) : Except String (Option String) :=
  match m.groups.lookup g with
  | some v => Except.ok v
  | none => Except.error ("no such group " ++ g)

/-- Candidates contributed by one match of a range pattern
(`REF_PATTERNS[0]/[2]/[4]` loops): expand `[Y, Z]` when the article and
both endpoints parse, `Y ≤ Z` and `Z − Y` is within `cap`; otherwise fall
back to the start index alone; otherwise discard the match. -/
def candsRange (gA gS gE : String) (cap : Nat) (mk : String → Nat → String → Ref)
    (m : MRes) : List Ref :=
  let art := normalize_art ((mgroupGet m gA).getD "")
  let y := zh_to_int ((mgroupGet m gS).getD "")
  let z := zh_to_int ((mgroupGet m gE).getD "")
  let hit := String.mk m.hit
  if pyTruthyOS art && pyTruthyON y && pyTruthyON z &&
      decide (y.getD 0 ≤ z.getD 0) && decide (z.getD 0 - y.getD 0 ≤ cap) then
    (List.range' (y.getD 0) (z.getD 0 - y.getD 0 + 1)).map (fun k => mk (art.getD "") k hit)
  else if pyTruthyOS art && pyTruthyON y then
    [mk (art.getD "") (y.getD 0) hit]
  else []

/-- Candidates contributed by one match of a single-unit pattern
(`REF_PATTERNS[1]/[3]` loops). -/
def candsSingle (gA gY : String) (mk : String → Nat → String → Ref)
    (m : MRes) : List Ref :=
  let art := normalize_art ((mgroupGet m gA).getD "")
  let y := zh_to_int ((mgroupGet m gY).getD "")
  if pyTruthyOS art && pyTruthyON y then
    [mk (art.getD "") (y.getD 0) (String.mk m.hit)]
  else []

/-- Build an explicit item reference. -/
def mkItemRef (a : String) (k : Nat) (hit : String) : Ref :=
  ⟨"explicit", a, some k, none, none, hit⟩

/-- Build an explicit clause (款) reference. -/
def mkKuanRef (a : String) (k : Nat) (hit : String) : Ref :=
  ⟨"explicit", a, none, some k, none, hit⟩

/-- Build an explicit sub-item (目) reference. -/
def mkMuRef (a : String) (k : Nat) (hit : String) : Ref :=
  ⟨"explicit", a, none, none, some k, hit⟩

/-- Distribute the index of a relative reference over the slot selected by
its 項/款/目 keyword. -/
def kindSlots (kd : Option String) (n : Option Nat) :
    Option Nat × Option Nat × Option Nat :=
  match kd with
  | some "項" => (n, none, none)
  | some "款" => (none, n, none)
  | some "目" => (none, none, n)
  | _ => (none, none, none)

/-- Candidates of the loop commented "6) 第X條（不指明層級）", which scans
`REF_PATTERNS[5]` (the single-目 pattern).  When the matched span contains
項, 款 or 目 the iteration is skipped; otherwise the source evaluates
`m.group("art_only")` — a name that is not a group of `REF_PATTERNS[5]` —
which would raise, and its dead tail then reads `m.group("prev_nzh")`. -/
def cands6 (prev : Option String) (m : MRes) : Except String (List Ref) :=
  if m.hit.contains '項' || m.hit.contains '款' || m.hit.contains '目' then
    Except.ok []
  else
    match mgroupE m "art_only" with
    | Except.error e => Except.error e
    | Except.ok a =>
      let art := normalize_art (a.getD "")
      let first := if pyTruthyOS art then
          [Ref.mk "explicit" (art.getD "") none none none (String.mk m.hit)]
        else []
      if !(pyTruthyOS prev) then
        Except.ok first
      else
        match mgroupE m "prev_nzh" with
        | Except.error e => Except.error e
        | Except.ok nraw =>
          match mgroupE m "prev_kind" with
          | Except.error e => Except.error e
          | Except.ok kd =>
            let n := if pyTruthyOS nraw then zh_to_int (nraw.getD "") else none
            let s := kindSlots kd n
            Except.ok (first ++ [Ref.mk "prev" (prev.getD "") s.1 s.2.1 s.2.2 (String.mk m.hit)])

/-- Candidates of the loop commented "7) 前條…", which scans
`REF_PATTERNS[6]` (the bare-article pattern) and reads the `prev_nzh` /
`prev_kind` groups through `groupdict().get` (total, yielding `None`):
every bare `第X條` match therefore contributes one all-`None` reference of
kind "prev" to the computed preceding article. -/
def cands7 (prev : Option String) (m : MRes) : List Ref :=
  if !(pyTruthyOS prev) then []
  else
    let nraw := mgroupGet m "prev_nzh"
    let kd := mgroupGet m "prev_kind"
    let n := if pyTruthyOS nraw then zh_to_int (nraw.getD "") else none
    let s := kindSlots kd n
    [Ref.mk "prev" (prev.getD "") s.1 s.2.1 s.2.2 (String.mk m.hit)]

/-- All candidates of one line, in the order the source's seven loops
insert them. -/
def lineCands (prev : Option String) (text : String) : Except String (List Ref) :=
  let cs := text.toList
  let b1 := ((finditer matchAt0 cs).map
    (candsRange "art_r1" "itemzh_start" "itemzh_end" 30 mkItemRef)).flatten
  let b2 := ((finditer matchAt1 cs).map (candsSingle "art_r2" "itemzh" mkItemRef)).flatten
  let b3 := ((finditer matchAt2 cs).map
    (candsRange "art_k1" "kuanzh_start" "kuanzh_end" 50 mkKuanRef)).flatten
  let b4 := ((finditer matchAt3 cs).map (candsSingle "art_k2" "kuanzh" mkKuanRef)).flatten
  let b5 := ((finditer matchAt4 cs).map
    (candsRange "art_m1" "muzh_start" "muzh_end" 50 mkMuRef)).flatten
  let b7 := ((finditer matchAt6 cs).map (cands7 prev)).flatten
  match (finditer matchAt5 cs).mapM (cands6 prev) with
  | Except.error e => Except.error e
  | Except.ok b6 => Except.ok (b1 ++ b2 ++ b3 ++ b4 ++ b5 ++ b6.flatten ++ b7)

/-- The `for ln in lines` loop of `extract_references`. -/
def extLoop (prev : Option String) (st : ExtState) :
    List LawLine → Except String ExtState
  | [] => Except.ok st
  | ln :: ls =>
    match lineCands prev ln.text with
    | Except.error e => Except.error e
    | Except.ok cs => extLoop prev (foldAdd st cs) ls

/-- The function `extract_references` of `get_signal_txt.py`: compute the
"前條" target from the current article id, then scan every line with the
seven loops, deduplicating through `add_ref`. -/
def extract_references (main_flno : String) (lines : List LawLine) :
    Except String (List Ref) :=
  (extLoop (compute_prev_flno main_flno) ⟨[], []⟩ lines).map (fun st => st.refs)

/-!
## `fetch_ref_articles`

The per-reference fetch (`fetch_single_by_pcode_flno` + `parse_single_row_html`)
is pure I/O plus HTML selection — the spec's external `ArticleFetcher`
collaborator — and is abstracted as an oracle
`fetchFn : String → Except String (ParsedArticle × String)` mapping a target
article id to either the parsed article together with its URL, or the
string of the raised exception.  Everything after the fetch is modelled
from the source.
-/

/-- Result of `parse_single_row_html`: `{no_text, flno, lines}`. -/
structure ParsedArticle where
  no_text : Option String
  flno : Option String
  lines : List LawLine
deriving DecidableEq

/-- The heuristic `KUAN_PREFIX_RE` (`^(?:[一二三四五六七八九十百]+、|\d+[\.．])`)
as an anchored boolean test. -/
def kuanPrefixMatch (s : String) : Bool :=
  let cs := s.toList
  (let n := maxRun isZhNum cs
   decide (1 ≤ n) &&
     (match cs.drop n with
      | c :: _ => c = '、'
      | [] => false)) ||
  (let d := maxRun Char.isDigit cs
   decide (1 ≤ d) &&
     (match cs.drop d with
      | c :: _ => c = '.' || c = '．'
      | [] => false))

/-- The heuristic `MU_PREFIX_RE`
(`^(?:[（(][一二三四五六七八九十百]+[)）]|\d+[\.．])`) as an anchored
boolean test. -/
def muPrefixMatch (s : String) : Bool :=
  (match s.toList with
   | o :: rest =>
     (o = '（' || o = '(') &&
       (let n := maxRun isZhNum rest
        decide (1 ≤ n) &&
          (match rest.drop n with
           | c :: _ => c = ')' || c = '）'
           | [] => false))
   | [] => false) ||
  (let cs := s.toList
   let d := maxRun Char.isDigit cs
   decide (1 ≤ d) &&
     (match cs.drop d with
      | c :: _ => c = '.' || c = '．'
      | [] => false))

/-- The function `pick_item_text`: 1-based index into the `numbered` lines,
falling back to the unfiltered line list. -/
def pick_item_text (lines : List LawLine) (idx : Option Nat) : Option String :=
  if lines.isEmpty || idx = none || decide (idx.getD 0 < 1) then none
  else
    let numbered := lines.filter (fun L => L.numbered)
    let i := idx.getD 0
    if !numbered.isEmpty && decide (i ≤ numbered.length) then
      (numbered.get? (i - 1)).map (fun L => L.text)
    else if decide (i ≤ lines.length) then
      (lines.get? (i - 1)).map (fun L => L.text)
    else none

/-- The function `pick_kuan_text`: 1-based index into the lines whose text
matches `KUAN_PREFIX_RE`. -/
def pick_kuan_text (lines : List LawLine) (idx : Option Nat) : Option String :=
  if lines.isEmpty || idx = none || decide (idx.getD 0 < 1) then none
  else
    let kuans := lines.filter (fun L => kuanPrefixMatch L.text)
    let i := idx.getD 0
    if !kuans.isEmpty && decide (i ≤ kuans.length) then
      (kuans.get? (i - 1)).map (fun L => L.text)
    else none

/-- The function `pick_mu_text`: 1-based index into the lines whose text
matches `MU_PREFIX_RE`. -/
def pick_mu_text (lines : List LawLine) (idx : Option Nat) : Option String :=
  if lines.isEmpty || idx = none || decide (idx.getD 0 < 1) then none
  else
    let mus := lines.filter (fun L => muPrefixMatch L.text)
    let i := idx.getD 0
    if !mus.isEmpty && decide (i ≤ mus.length) then
      (mus.get? (i - 1)).map (fun L => L.text)
    else none

/-- One output entry of `fetch_ref_articles`: the success dict with all its
keys, or the failure dict carrying only `ref_text` / `target_flno` /
`error`. -/
inductive RefResult where
  | entry (ref_text : String) (target_flno : Option String)
      (target_no_text : Option String) (url : String)
      (item_index kuan_index mu_index : Option Nat)
      (selected_level : Option String) (selected_text : Option String)
      (lines : Option (List LawLine)) : RefResult
  | failed (ref_text : String) (target_flno : String) (error : String) : RefResult
deriving DecidableEq

/-- The `selected_level` field of a result entry (absent on failure). -/
def selLevelOf : RefResult → Option String
  | RefResult.entry _ _ _ _ _ _ _ lvl _ _ => lvl
  | RefResult.failed _ _ _ => none

/-- The `selected_text` field of a result entry (absent on failure). -/
def selTextOf : RefResult → Option String
  | RefResult.entry _ _ _ _ _ _ _ _ ct _ => ct
  | RefResult.failed _ _ _ => none

/-- The `lines` field of a result entry (absent on failure). -/
def linesOf : RefResult → Option (List LawLine)
  | RefResult.entry _ _ _ _ _ _ _ _ _ ls => ls
  | RefResult.failed _ _ _ => none

/-- The `chosen_text` / `chosen_level` chain of the loop body of
`fetch_ref_articles`: item, then clause, then sub-item, each attempted only
when the previous level produced no text and the corresponding index is
truthy; the attempted level is recorded even when its pick returned
nothing. -/
def chosenPair (lines : List LawLine) (r : Ref) : Option String × Option String :=
  let ct1 := if pyTruthyON r.item then pick_item_text lines r.item else none
  let cl1 := if pyTruthyON r.item then some "item" else (none : Option String)
  let ct2 := if !(pyTruthyOS ct1) && pyTruthyON r.kuan then
      pick_kuan_text lines r.kuan else ct1
  let cl2 := if !(pyTruthyOS ct1) && pyTruthyON r.kuan then some "kuan" else cl1
  let ct3 := if !(pyTruthyOS ct2) && pyTruthyON r.mu then
      pick_mu_text lines r.mu else ct2
  let cl3 := if !(pyTruthyOS ct2) && pyTruthyON r.mu then some "mu" else cl2
  (ct3, cl3)

/-- The loop body of `fetch_ref_articles` for one reference: fetch, then
run the selection chain; the full line list is attached only when the
chosen text is falsy.  A raised exception becomes the failure dict. -/
def resolveOne (fetchFn : String → Except String (ParsedArticle × String))
    (r : Ref) : RefResult :=
  match fetchFn r.flno with
  | Except.error e => RefResult.failed r.hit r.flno e
  | Except.ok (parsed, url) =>
    let ch := chosenPair parsed.lines r
    RefResult.entry r.hit parsed.flno parsed.no_text url r.item r.kuan r.mu
      ch.2 ch.1 (if pyTruthyOS ch.1 then none else some parsed.lines)

/-- Python list slicing `l[:n]` for an `int` bound: a non-negative bound
takes a prefix, a negative bound drops the last `|n|` elements. -/
def pySliceTo (n : Int) (l : List α) : List α :=
  if 0 ≤ n then l.take n.toNat
  else l.take (l.length - (-n).toNat)

/-- The function `fetch_ref_articles` of `get_signal_txt.py`: resolve the
first `max_refs` references independently (the `pcode` argument is folded
into the fetch oracle). -/
def fetch_ref_articles (fetchFn : String → Except String (ParsedArticle × String))
    (refs : List Ref) (max_refs : Int := 20) : List RefResult :=
  (pySliceTo max_refs refs).map (resolveOne fetchFn)

/-!
## `parse_law_content` (document structurer of `law_client.py`)

The HTML children of `div.law-reg-content` are abstracted to the outcome of
the source's dispatch tests: a chapter heading (`div.h3.char-2`), a section
heading (`div.h3.char-3`), an article row (`div.row`, carrying the results
of the `.col-no a` and `.col-data .law-article` selections, either of which
may be missing), or any other node (skipped).  Inside a row, each inner
`div` is abstracted to its class list and extracted text; the source's own
`re.sub(r"\s+", " ", …)` cleaning and `line-*` filtering are modelled.
Python's mutation of the `current_ch` / `current_sec` dicts — which are
aliased into the `chapters` list — is modelled by rewriting the last
chapter (and its last section) in place, which is where the current
pointers always point. -/

/-- An inner `div` of an article row: its `class` list and extracted text. -/
structure LineDiv where
  classes : List String
  text : String
deriving DecidableEq

/-- The `.col-no a` anchor of a row: its `name` attribute (`.get("name", "")`)
and its stripped text. -/
structure NoAnchor where
  nameAttr : String
  text : String
deriving DecidableEq

/-- A child node of the content root, abstracted to the source's dispatch. -/
inductive HNode where
  | chapterH (title : String) : HNode
  | sectionH (title : String) : HNode
  | rowH (noA : Option NoAnchor) (artBox : Option (List LineDiv)) : HNode
  | otherH : HNode
deriving DecidableEq

/-- A flat-article entry of `parse_law_content` (the `item` dict).  The
optional `truncated` key is modelled as a boolean. -/
structure LawItem where
  flno : String
  no_text : String
  text_lines : List String
  chapter : Option String
  sectionTitle : Option String
  truncated : Bool
deriving DecidableEq

/-- A section dict `{title, articles}`. -/
structure PSection where
  title : String
  articles : List LawItem
deriving DecidableEq

/-- A chapter dict `{title, sections, articles}`. -/
structure PChapter where
  title : String
  sections : List PSection
  articles : List LawItem
deriving DecidableEq

/-- Running state of the structuring loop: the chapter list, the flat
article list, whether `current_ch` / `current_sec` are set (they always
point at the last chapter and its last section), and `article_count`. -/
structure PLCState where
  chapters : List PChapter
  flat : List LawItem
  chOpen : Bool
  secOpen : Bool
  count : Nat

/-- Rewrite the last element of a list in place. -/
def updateLast (f : α → α) : List α → List α
  | [] => []
  | [a] => [f a]
  | a :: b :: rest => a :: updateLast f (b :: rest)

/-- The helper `ensure_chapter`: append a fresh chapter and make it
current. -/
def ensure_chapter (t : String) (st : PLCState) : PLCState :=
  { st with chapters := st.chapters ++ [⟨t, [], []⟩], chOpen := true }

/-- The helper `ensure_section`: synthesize an empty-titled chapter if none
is open, then append a fresh section to the current chapter and make it
current. -/
def ensure_section (t : String) (st : PLCState) : PLCState :=
  let st := if st.chOpen then st else ensure_chapter "" st
  { st with
    chapters := updateLast
      (fun c => { c with sections := c.sections ++ [⟨t, []⟩] }) st.chapters,
    secOpen := true }

/-- Title of the current chapter (`current_ch["title"] if current_ch`). -/
def curChapterTitle (st : PLCState) : Option String :=
  if st.chOpen then (st.chapters.getLast?).map (fun c => c.title) else none

/-- Title of the current section (`current_sec["title"] if current_sec`). -/
def curSectionTitle (st : PLCState) : Option String :=
  if st.secOpen then
    (st.chapters.getLast?).bind (fun c => (c.sections.getLast?).map (fun s => s.title))
  else none

/-- Python `str.startswith` on character lists. -/
def listStartsWith : List Char → List Char → Bool
  | [], _ => true
  | _ :: _, [] => false
  | p :: ps, c :: cs => p = c && listStartsWith ps cs

/-- The `text_lines` construction of a row: keep inner `div`s with a
`line-*` class, normalize whitespace, drop empties, and in summary mode
stop after the first kept line. -/
def buildLinesGo (summary : Bool) : List LineDiv → List String → List String
  | [], acc => acc
  | d :: ds, acc =>
    if !d.classes.isEmpty && d.classes.any (fun c => listStartsWith "line-".toList c.toList) then
      let txt := normWS d.text
      if !txt.isEmpty then
        if summary && decide (1 ≤ acc.length) then acc
        else buildLinesGo summary ds (acc ++ [txt])
      else buildLinesGo summary ds acc
    else buildLinesGo summary ds acc

/-- The `text_lines` of one article row. -/
def buildLines (summary : Bool) (divs : List LineDiv) : List String :=
  buildLinesGo summary divs []

/-- Append an article to a section's list. -/
def secPush (it : LawItem) (s : PSection) : PSection :=
  { s with articles := s.articles ++ [it] }

/-- Append an article to a chapter's direct list. -/
def chPushArt (it : LawItem) (c : PChapter) : PChapter :=
  { c with articles := c.articles ++ [it] }

/-- Append an article to the last section of a chapter. -/
def chPushSecArt (it : LawItem) (c : PChapter) : PChapter :=
  { c with sections := updateLast (secPush it) c.sections }

/-- Tree placement of a freshly built article item: current section if one
is open, else current chapter's direct articles, else a synthesized
empty-titled chapter. -/
def appendArticle (it : LawItem) (st : PLCState) : PLCState :=
  if st.secOpen then
    { st with chapters := updateLast (chPushSecArt it) st.chapters }
  else if st.chOpen then
    { st with chapters := updateLast (chPushArt it) st.chapters }
  else
    let st := ensure_chapter "" st
    { st with chapters := updateLast (chPushArt it) st.chapters }

/-- One step of the structuring loop. -/
def stepNode (summary : Bool) (n : HNode) (st : PLCState) : PLCState :=
  match n with
  | HNode.chapterH t => { (ensure_chapter t st) with secOpen := false }
  | HNode.sectionH t => ensure_section t st
  | HNode.rowH noA artBox =>
    match noA, artBox with
    | some na, some divs =>
      let lines := buildLines summary divs
      let it : LawItem :=
        { flno := String.mk (pyStrip na.nameAttr.toList)
          no_text := na.text
          text_lines := lines
          chapter := curChapterTitle st
          sectionTitle := curSectionTitle st
          truncated := summary && decide (lines.length < divs.length) }
      let st := { st with flat := st.flat ++ [it], count := st.count + 1 }
      appendArticle it st
    | _, _ => st
  | HNode.otherH => st

/-- The structuring loop with the `max_articles` cap (checked before each
node, breaking out of the loop). -/
def plcLoop (summary : Bool) (maxA : Nat) : List HNode → PLCState → PLCState
  | [], st => st
  | n :: ns, st =>
    if 0 < maxA ∧ maxA ≤ st.count then st
    else plcLoop summary maxA ns (stepNode summary n st)

/-- Output of `parse_law_content`: the chapter tree and the flat list. -/
structure PLCResult where
  chapters : List PChapter
  flat_articles : List LawItem
deriving DecidableEq

/-- The function `parse_law_content` of `law_client.py`: a missing content
root raises (`StructuralError`); otherwise the node sequence is folded into
the chapter tree and the flat article list.  `max_articles` is a `Nat`
(Python guards the cap with `max_articles > 0`, so non-positive values all
mean "no cap"). -/
def parse_law_content (root : Option (List HNode)) (summary : Bool := false)
    (maxA : Nat := 0) : Except String PLCResult :=
  match root with
  | none => Except.error "law content root missing"
  | some ns =>
    let st := plcLoop summary maxA ns ⟨[], [], false, false, 0⟩
    Except.ok ⟨st.chapters, st.flat⟩

/-- In-order flattening of one chapter: direct articles first (they always
precede every section of the chapter in source order), then the sections'
articles. -/
def chFlatten (c : PChapter) : List LawItem :=
  c.articles ++ (c.sections.map (fun s => s.articles)).flatten

/-- In-order flattening of the chapter tree. -/
def treeFlatten (cs : List PChapter) : List LawItem :=
  (cs.map chFlatten).flatten

/-!
## Helper lemmas about the `add_ref` accumulator
-/

/-- Well-formedness of the accumulator: the `seen` set is exactly the list
of identity keys of `refs`, without duplicates. -/
def GoodSt (st : ExtState) : Prop :=
  st.seen = st.refs.map refKey ∧ st.seen.Nodup

theorem add_ref_good (st : ExtState) (r : Ref) (h : GoodSt st) :
    GoodSt (add_ref st r) := by
  obtain ⟨h1, h2⟩ := h
  unfold add_ref
  split
  · exact ⟨h1, h2⟩
  · refine ⟨by simp [h1], ?_⟩
    rename_i hnot
    simpa [List.nodup_append, h2] using fun hmem => hnot hmem

theorem add_ref_seen_mono (st : ExtState) (r : Ref) :
    ∀ k ∈ st.seen, k ∈ (add_ref st r).seen := by
  intro k hk
  unfold add_ref
  split
  · exact hk
  · simp [hk]

theorem add_ref_refs_mono (st : ExtState) (r : Ref) :
    ∀ x ∈ st.refs, x ∈ (add_ref st r).refs := by
  intro x hx
  unfold add_ref
  split
  · exact hx
  · simp [hx]

theorem add_ref_key_mem (st : ExtState) (r : Ref) :
    refKey r ∈ (add_ref st r).seen := by
  unfold add_ref
  split
  · assumption
  · simp

theorem add_ref_noop (st : ExtState) (r : Ref) (h : refKey r ∈ st.seen) :
    add_ref st r = st := by
  unfold add_ref
  simp [h]

theorem foldAdd_good (cs : List Ref) : ∀ st : ExtState, GoodSt st →
    GoodSt (foldAdd st cs) := by
  induction cs with
  | nil => intro st h; exact h
  | cons c cs ih =>
    intro st h
    exact ih (add_ref st c) (add_ref_good st c h)

theorem foldAdd_seen_mono (cs : List Ref) : ∀ st : ExtState,
    ∀ k ∈ st.seen, k ∈ (foldAdd st cs).seen := by
  induction cs with
  | nil => intro st k hk; exact hk
  | cons c cs ih =>
    intro st k hk
    exact ih (add_ref st c) k (add_ref_seen_mono st c k hk)

theorem foldAdd_refs_mono (cs : List Ref) : ∀ st : ExtState,
    ∀ x ∈ st.refs, x ∈ (foldAdd st cs).refs := by
  induction cs with
  | nil => intro st x hx; exact hx
  | cons c cs ih =>
    intro st x hx
    exact ih (add_ref st c) x (add_ref_refs_mono st c x hx)

theorem foldAdd_key_mem (cs : List Ref) : ∀ st : ExtState,
    ∀ c ∈ cs, refKey c ∈ (foldAdd st cs).seen := by
  induction cs with
  | nil => intro st c hc; cases hc
  | cons c0 cs ih =>
    intro st c hc
    rcases List.mem_cons.mp hc with h | h
    · subst h
      exact foldAdd_seen_mono cs (add_ref st c) (refKey c) (add_ref_key_mem st c)
    · exact ih (add_ref st c0) c h

theorem foldAdd_noop (cs : List Ref) : ∀ st : ExtState,
    (∀ c ∈ cs, refKey c ∈ st.seen) → foldAdd st cs = st := by
  induction cs with
  | nil => intro st _; rfl
  | cons c cs ih =>
    intro st h
    have hc : add_ref st c = st := add_ref_noop st c (h c (by simp))
    show foldAdd (add_ref st c) cs = st
    rw [hc]
    exact ih st (fun x hx => h x (by simp [hx]))

/-- Membership of a key in the output corresponds to membership in `seen`. -/
theorem goodSt_key_iff (st : ExtState) (h : GoodSt st) (k) :
    k ∈ st.seen ↔ k ∈ st.refs.map refKey := by
  rw [h.1]

theorem extLoop_good (prev : Option String) (lines : List LawLine) :
    ∀ st st', GoodSt st → extLoop prev st lines = Except.ok st' → GoodSt st' := by
  induction lines with
  | nil =>
    intro st st' hg h
    simp only [extLoop] at h
    cases h
    exact hg
  | cons ln ls ih =>
    intro st st' hg h
    simp only [extLoop] at h
    cases hcs : lineCands prev ln.text with
    | error e => rw [hcs] at h; exact Except.noConfusion h
    | ok cs =>
      rw [hcs] at h
      exact ih (foldAdd st cs) st' (foldAdd_good cs st hg) h

theorem extLoop_seen_mono (prev : Option String) (lines : List LawLine) :
    ∀ st st', extLoop prev st lines = Except.ok st' →
      ∀ k ∈ st.seen, k ∈ st'.seen := by
  induction lines with
  | nil =>
    intro st st' h
    simp only [extLoop] at h
    cases h
    exact fun k hk => hk
  | cons ln ls ih =>
    intro st st' h
    simp only [extLoop] at h
    cases hcs : lineCands prev ln.text with
    | error e => rw [hcs] at h; exact Except.noConfusion h
    | ok cs =>
      rw [hcs] at h
      intro k hk
      exact ih (foldAdd st cs) st' h k (foldAdd_seen_mono cs st k hk)

theorem extLoop_refs_mono (prev : Option String) (lines : List LawLine) :
    ∀ st st', extLoop prev st lines = Except.ok st' →
      ∀ x ∈ st.refs, x ∈ st'.refs := by
  induction lines with
  | nil =>
    intro st st' h
    simp only [extLoop] at h
    cases h
    exact fun x hx => hx
  | cons ln ls ih =>
    intro st st' h
    simp only [extLoop] at h
    cases hcs : lineCands prev ln.text with
    | error e => rw [hcs] at h; exact Except.noConfusion h
    | ok cs =>
      rw [hcs] at h
      intro x hx
      exact ih (foldAdd st cs) st' h x (foldAdd_refs_mono cs st x hx)

/-- Every candidate of every processed line has its key in the final
`seen` set. -/
theorem extLoop_key_mem (prev : Option String) (lines : List LawLine) :
    ∀ st st', extLoop prev st lines = Except.ok st' →
      ∀ ln ∈ lines, ∀ cs, lineCands prev ln.text = Except.ok cs →
        ∀ c ∈ cs, refKey c ∈ st'.seen := by
  induction lines with
  | nil =>
    intro st st' _ ln hln
    cases hln
  | cons ln0 ls ih =>
    intro st st' h ln hln cs hcs c hc
    simp only [extLoop] at h
    cases hcs0 : lineCands prev ln0.text with
    | error e => rw [hcs0] at h; exact Except.noConfusion h
    | ok cs0 =>
      rw [hcs0] at h
      rcases List.mem_cons.mp hln with heq | hmem
      · subst heq
        rw [hcs0] at hcs
        cases hcs
        exact extLoop_seen_mono prev ls (foldAdd st cs) st' h (refKey c)
          (foldAdd_key_mem cs st c hc)
      · exact ih (foldAdd st cs0) st' h ln hmem cs hcs c hc

/-- A successful run certifies that every line's candidate computation
succeeded. -/
theorem extLoop_ok_cands (prev : Option String) (lines : List LawLine) :
    ∀ st st', extLoop prev st lines = Except.ok st' →
      ∀ ln ∈ lines, ∃ cs, lineCands prev ln.text = Except.ok cs := by
  induction lines with
  | nil =>
    intro st st' _ ln hln
    cases hln
  | cons ln0 ls ih =>
    intro st st' h ln hln
    simp only [extLoop] at h
    cases hcs0 : lineCands prev ln0.text with
    | error e => rw [hcs0] at h; exact Except.noConfusion h
    | ok cs0 =>
      rw [hcs0] at h
      rcases List.mem_cons.mp hln with heq | hmem
      · subst heq
        exact ⟨cs0, hcs0⟩
      · exact ih (foldAdd st cs0) st' h ln hmem

/-!
## Matched spans of the single-目 pattern always contain 目

The loop commented "6) 第X條（不指明層級）" never reaches its
`m.group("art_only")` call because every match of the pattern it actually
scans (`REF_PATTERNS[5]`) ends in the literal 目, so the 項/款/目 guard
always fires.  The lemmas below push this through each matcher combinator.
-/

/-- A matcher all of whose successful matches contain the character `c`. -/
def hitEnsures (c : Char) (k : MK) : Prop :=
  ∀ s r, k s = some r → c ∈ r.hit

theorem hitEnsures_prepend (c : Char) (p : List Char) (o : Option MRes) (r : MRes)
    (h : prependHit p o = some r) (hin : ∀ m, o = some m → c ∈ m.hit) :
    c ∈ r.hit := by
  cases o with
  | none => exact Option.noConfusion h
  | some m =>
    simp only [prependHit, Option.map] at h
    cases h
    exact List.mem_append_right p (hin m rfl)

theorem hitEnsures_pChar_self (c : Char) (k : MK) : hitEnsures c (pChar c k) := by
  intro s r h
  cases s with
  | nil => exact Option.noConfusion h
  | cons c0 s0 =>
    simp only [pChar] at h
    by_cases hc : c0 = c
    · rw [if_pos hc] at h
      cases hk : k s0 with
      | none => rw [hk] at h; exact Option.noConfusion h
      | some m =>
        rw [hk] at h
        simp only [prependHit, Option.map] at h
        cases h
        exact List.mem_append_left _ (by simp)
    · rw [if_neg hc] at h
      exact Option.noConfusion h

theorem hitEnsures_pChar (c a : Char) (k : MK) (hk : hitEnsures c k) :
    hitEnsures c (pChar a k) := by
  intro s r h
  cases s with
  | nil => exact Option.noConfusion h
  | cons c0 s0 =>
    simp only [pChar] at h
    by_cases hc : c0 = a
    · rw [if_pos hc] at h
      cases hks : k s0 with
      | none => rw [hks] at h; exact Option.noConfusion h
      | some m =>
        rw [hks] at h
        simp only [prependHit, Option.map] at h
        cases h
        exact List.mem_append_right _ (hk s0 m hks)
    · rw [if_neg hc] at h
      exact Option.noConfusion h

theorem hitEnsures_pStr (c : Char) (cs : List Char) (k : MK)
    (hk : hitEnsures c k) : hitEnsures c (pStr cs k) := by
  induction cs with
  | nil => exact hk
  | cons a as ih => exact hitEnsures_pChar c a _ ih

theorem hitEnsures_pOptStr (c : Char) (cs : List Char) (k : MK)
    (hk : hitEnsures c k) : hitEnsures c (pOptStr cs k) := by
  intro s r h
  simp only [pOptStr] at h
  cases hp : pStr cs k s with
  | none => rw [hp] at h; exact hk s r h
  | some m =>
    rw [hp] at h
    obtain rfl : m = r := Option.some.inj h
    exact hitEnsures_pStr c cs k hk s m hp

theorem hitEnsures_pWs (c : Char) (k : MK) (hk : hitEnsures c k) :
    hitEnsures c (pWs k) := by
  intro s r h
  simp only [pWs] at h
  cases hks : k (s.drop (maxRun isPySpace s)) with
  | none => rw [hks] at h; exact Option.noConfusion h
  | some m =>
    rw [hks] at h
    simp only [prependHit, Option.map] at h
    cases h
    exact List.mem_append_right _ (hk _ m hks)

theorem hitEnsures_goPlus (c : Char) (k : List Char → MK) (s : List Char)
    (hk : ∀ cap, hitEnsures c (k cap)) :
    ∀ n r, goPlus k s n = some r → c ∈ r.hit := by
  intro n
  induction n with
  | zero => intro r h; exact Option.noConfusion h
  | succ n ih =>
    intro r h
    simp only [goPlus] at h
    cases hks : k (s.take (n + 1)) (s.drop (n + 1)) with
    | none => rw [hks] at h; simp only [prependHit, Option.map] at h; exact ih r h
    | some m =>
      rw [hks] at h
      simp only [prependHit, Option.map] at h
      cases h
      exact List.mem_append_right _ (hk _ _ m hks)

theorem hitEnsures_pPlusCap (c : Char) (p : Char → Bool) (k : List Char → MK)
    (hk : ∀ cap, hitEnsures c (k cap)) : hitEnsures c (pPlusCap p k) := by
  intro s r h
  exact hitEnsures_goPlus c k s hk (maxRun p s) r h

theorem hitEnsures_pArtNum (c : Char) (k : List Char → MK)
    (hk : ∀ a, hitEnsures c (k a)) : hitEnsures c (pArtNum k) := by
  refine hitEnsures_pPlusCap c Char.isDigit _ (fun ds s r h => ?_)
  simp only at h
  cases hp : pChar '-' (pPlusCap Char.isDigit fun ds2 => k (ds ++ '-' :: ds2)) s with
  | none => rw [hp] at h; exact hk ds s r h
  | some m =>
    rw [hp] at h
    obtain rfl : m = r := Option.some.inj h
    exact hitEnsures_pChar c '-'
      (pPlusCap Char.isDigit fun ds2 => k (ds ++ '-' :: ds2))
      (hitEnsures_pPlusCap c Char.isDigit _ (fun ds2 => hk (ds ++ '-' :: ds2)))
      s m hp

theorem hitEnsures_pArt (c : Char) (k : List Char → MK)
    (hk : ∀ a, hitEnsures c (k a)) : hitEnsures c (pArt k) := by
  intro s r h
  simp only [pArt] at h
  cases hp : pPlusCap isCJK k s with
  | none => rw [hp] at h; exact hitEnsures_pArtNum c k hk s r h
  | some m =>
    rw [hp] at h
    obtain rfl : m = r := Option.some.inj h
    exact hitEnsures_pPlusCap c isCJK k hk s m hp

theorem hitEnsures_pArtPrefix (c : Char) (k : List Char → MK)
    (hk : ∀ a, hitEnsures c (k a)) : hitEnsures c (pArtPrefix k) := by
  unfold pArtPrefix
  refine hitEnsures_pOptStr c benfa _ ?_
  refine hitEnsures_pChar c '第' _ ?_
  refine hitEnsures_pWs c _ ?_
  refine hitEnsures_pArt c _ (fun a => ?_)
  refine hitEnsures_pWs c _ ?_
  exact hitEnsures_pChar c '條' _ (hk a)

theorem hitEnsures_pUnitSel_self (u : Char) (ky : List Char → MK) :
    hitEnsures u (pUnitSel u ky) := by
  unfold pUnitSel
  refine hitEnsures_pChar u '第' _ ?_
  refine hitEnsures_pWs u _ ?_
  refine hitEnsures_pPlusCap u isZhNum _ (fun y => ?_)
  refine hitEnsures_pWs u _ ?_
  exact hitEnsures_pChar_self u (ky y)

/-- Every match of `REF_PATTERNS[5]` (the single-目 pattern, erroneously
scanned by the loop commented "6) 第X條（不指明層級）") contains the
character 目 in its span. -/
theorem matchAt5_hit_mu : hitEnsures '目' matchAt5 := by
  unfold matchAt5 matchSinglePat
  refine hitEnsures_pArtPrefix '目' _ (fun a => ?_)
  refine hitEnsures_pWs '目' _ ?_
  exact hitEnsures_pUnitSel_self '目' _

/-- `finditer` only returns matches of its matcher, so a `hitEnsures`
property transfers to every match found. -/
theorem finditer_hitEnsures (c : Char) (k : MK) (hk : hitEnsures c k) :
    ∀ fuel s m, m ∈ finditerAux k fuel s → c ∈ m.hit := by
  intro fuel
  induction fuel with
  | zero => intro s m h; cases h
  | succ fuel ih =>
    intro s m h
    cases s with
    | nil => cases h
    | cons c0 s1 =>
      cases hks : k (c0 :: s1) with
      | none =>
        simp only [finditerAux, hks] at h
        exact ih s1 m h
      | some m0 =>
        by_cases hlt : m0.rest.length < s1.length + 1
        · simp only [finditerAux, hks, if_pos hlt] at h
          rcases List.mem_cons.mp h with heq | hmem
          · rw [heq]; exact hk _ m0 hks
          · exact ih m0.rest m hmem
        · simp only [finditerAux, hks, if_neg hlt] at h
          rcases List.mem_cons.mp h with heq | hmem
          · rw [heq]; exact hk _ m0 hks
          · exact ih s1 m hmem

/-- Guard of the "6)" loop fires on every single-目 match. -/
theorem cands6_mu_ok (prev : Option String) (m : MRes) (h : '目' ∈ m.hit) :
    cands6 prev m = Except.ok [] := by
  unfold cands6
  rw [show m.hit.contains '目' = true from List.elem_iff.mpr h]
  simp

theorem mapM_cands6_ok (prev : Option String) : ∀ ms : List MRes,
    (∀ m ∈ ms, cands6 prev m = Except.ok []) →
    ∃ bs : List (List Ref), ms.mapM (cands6 prev) = Except.ok bs ∧ bs.flatten = [] := by
  intro ms
  induction ms with
  | nil => exact fun _ => ⟨[], rfl, rfl⟩
  | cons m ms ih =>
    intro h
    obtain ⟨bs, hbs, hfl⟩ := ih (fun x hx => h x (by simp [hx]))
    refine ⟨[] :: bs, ?_, by simp [hfl]⟩
    rw [List.mapM_cons, h m (by simp), hbs]
    rfl

/-- The candidate computation of a line never raises: the only fallible
step is the "6)" loop, whose guard always fires. -/
theorem lineCands_ok (prev : Option String) (text : String) :
    ∃ cs, lineCands prev text = Except.ok cs := by
  have hall : ∀ m ∈ finditer matchAt5 text.toList, cands6 prev m = Except.ok [] :=
    fun m hm => cands6_mu_ok prev m
      (finditer_hitEnsures '目' matchAt5 matchAt5_hit_mu text.toList.length text.toList m hm)
  obtain ⟨bs, hbs, _⟩ := mapM_cands6_ok prev (finditer matchAt5 text.toList) hall
  simp only [lineCands]
  rw [hbs]
  exact ⟨_, rfl⟩

/-- The line loop of `extract_references` never raises. -/
theorem extLoop_ok (prev : Option String) : ∀ (lines : List LawLine) (st : ExtState),
    ∃ st', extLoop prev st lines = Except.ok st' := by
  intro lines
  induction lines with
  | nil => exact fun st => ⟨st, rfl⟩
  | cons ln ls ih =>
    intro st
    obtain ⟨cs, hcs⟩ := lineCands_ok prev ln.text
    obtain ⟨st', h⟩ := ih (foldAdd st cs)
    refine ⟨st', ?_⟩
    simp only [extLoop, hcs]
    exact h

/-!
## Claim theorems: numeral parsing and the preceding-article computation
-/

/-- If any character of the scanned list is neither a recognised Chinese
digit nor a unit, the scanning loop fails. -/
theorem zhLoop_none (c : Char) (hd : ZH_DIGITS c = none) (hu : ZH_UNITS c = none) :
    ∀ cs, c ∈ cs → ∀ total num, zhLoop cs total num = none := by
  intro cs
  induction cs with
  | nil => intro h; cases h
  | cons c0 cs ih =>
    intro h total num
    rcases List.mem_cons.mp h with heq | hmem
    · subst heq
      simp only [zhLoop, hd, hu]
    · simp only [zhLoop]
      cases hdc : ZH_DIGITS c0 with
      | some d => exact ih hmem total d
      | none =>
        cases huc : ZH_UNITS c0 with
        | some u => exact ih hmem _ 0
        | none => rfl

/-- Claim C4, counterexample: the claim's digit alphabet
{零〇一二三四五六七八九} forces `zh_to_int "兩"` to fail, but the source's
`ZH_DIGITS` table also contains the variant digit 兩 (value 2), so the
call succeeds with 2. -/
theorem zh_to_int_liang_counterexample : zh_to_int "兩" = some 2 ∧
    zh_to_int "兩" ≠ none := by decide

/-- Claim C4 as amended: `zh_to_int` parses a pure ASCII digit string (after
stripping) as its decimal value; otherwise it runs the left-to-right scan
`zhLoop` over the digit table `ZH_DIGITS` — which also contains 兩 ↦ 2 —
and the unit table `ZH_UNITS` ({十 ↦ 10, 百 ↦ 100}); it fails on the empty
(stripped) string and on any string containing a character that is neither
an ASCII digit, nor in `ZH_DIGITS`, nor in `ZH_UNITS`; and it satisfies the
spec's sample equations. -/
theorem zh_to_int_spec :
    (zh_to_int "十二" = some 12 ∧ zh_to_int "十" = some 10 ∧
     zh_to_int "二十三" = some 23 ∧ zh_to_int "一百" = some 100 ∧
     zh_to_int "兩" = some 2 ∧ zh_to_int "abc" = none ∧ zh_to_int "" = none) ∧
    (∀ s : String, pyStrip s.toList ≠ [] → (pyStrip s.toList).all Char.isDigit = true →
      zh_to_int s = some (pyInt10 (pyStrip s.toList))) ∧
    (∀ s : String, pyStrip s.toList ≠ [] → ¬ (pyStrip s.toList).all Char.isDigit = true →
      zh_to_int s = zhLoop (pyStrip s.toList) 0 0) ∧
    (∀ (s : String) (c : Char), c ∈ pyStrip s.toList → c.isDigit = false →
      ZH_DIGITS c = none → ZH_UNITS c = none → zh_to_int s = none) := by
  refine ⟨by decide, ?_, ?_, ?_⟩
  · intro s h1 h2
    unfold zh_to_int
    rw [if_neg h1, if_pos h2]
  · intro s h1 h2
    unfold zh_to_int
    rw [if_neg h1, if_neg h2]
  · intro s c hc hdig hd hu
    have h1 : pyStrip s.toList ≠ [] := fun h => by rw [h] at hc; cases hc
    have h2 : ¬ (pyStrip s.toList).all Char.isDigit = true := by
      intro hall
      rw [List.all_eq_true] at hall
      rw [hall c hc] at hdig
      exact Bool.noConfusion hdig
    unfold zh_to_int
    rw [if_neg h1, if_neg h2]
    exact zhLoop_none c hd hu _ hc 0 0

/-- Witness for the amended claim C4 at concrete inputs. -/
theorem zh_to_int_spec_witness :
    zh_to_int "42" = some 42 ∧ zh_to_int "十a" = none := by
  constructor
  · exact zh_to_int_spec.2.1 "42" (by decide) (by decide)
  · exact zh_to_int_spec.2.2.2 "十a" 'a' (by decide) (by decide) (by decide) (by decide)

/-- Claim C5, counterexample: for the hyphenated id "1-0" (minor 0) the
claim requires `major − 1 = "0"`, but the source only subtracts when
`major > 1` and returns "1". -/
theorem compute_prev_flno_counterexample :
    compute_prev_flno "1-0" = some "1" ∧ compute_prev_flno "1-0" ≠ some "0" := by decide

/-- Claim C5 as amended: for a hyphenated id, minor > 0 drops the minor
suffix; minor = 0 yields `major − 1` only when `major > 1` and otherwise
keeps `major`; an unhyphenated id yields `major − 1` when `major > 1` and
is kept unchanged otherwise; with the spec's sample equations. -/
theorem compute_prev_flno_spec :
    (∀ (s : String) (ma mi : Int), '-' ∈ s.toList →
      pyIntParse (s.toList.takeWhile (fun c => c ≠ '-')) = some ma →
      pyIntParse ((s.toList.dropWhile (fun c => c ≠ '-')).drop 1) = some mi →
      compute_prev_flno s =
        some (if mi > 0 then toString ma
              else if ma > 1 then toString (ma - 1) else toString ma)) ∧
    (∀ (s : String) (m : Int), '-' ∉ s.toList → pyIntParse s.toList = some m →
      compute_prev_flno s = some (if m > 1 then toString (m - 1) else toString m)) ∧
    (compute_prev_flno "16-1" = some "16" ∧ compute_prev_flno "16" = some "15" ∧
     compute_prev_flno "1" = some "1" ∧ compute_prev_flno "1-0" = some "1") := by
  refine ⟨?_, ?_, by decide⟩
  · intro s ma mi hmem hma hmi
    unfold compute_prev_flno
    rw [if_pos hmem, hma, hmi]
  · intro s m hmem hm
    unfold compute_prev_flno
    rw [if_neg hmem, hm]

/-- Witness for the amended claim C5 at concrete inputs. -/
theorem compute_prev_flno_spec_witness :
    compute_prev_flno "16-1" = some "16" ∧ compute_prev_flno "7" = some "6" := by
  constructor
  · exact (compute_prev_flno_spec.1 "16-1" 16 1 (by decide) (by decide) (by decide)).trans
      (by decide)
  · exact (compute_prev_flno_spec.2.1 "7" 7 (by decide) (by decide)).trans (by decide)

/-- Claim C2 is the intent of the source (its comments label the loops
"6) 第X條（不指明層級）" with the keyword guard and "7) 前條…"), but the
loops index `REF_PATTERNS` off by one: the "bare article" loop scans the
single-目 pattern (so its guard always fires and genuine bare-article
citations are never counted as bare explicit references), and the "前條"
loop scans the bare-article pattern.  Consequently the citation
"第5條第一項" in article "6" — already captured as an explicit item
reference — additionally produces a second no-qualifier reference to the
same article "5" (of kind "prev", via the bare sub-span "第5條"),
contradicting the claim's no-double-counting guarantee. -/
theorem extract_references_bare_double_count :
    extract_references "6" [⟨"第5條第一項", true⟩] =
      Except.ok [⟨"explicit", "5", some 1, none, none, "第5條第一項"⟩,
                 ⟨"prev", "5", none, none, none, "第5條"⟩] ∧
    extract_references "6" [⟨"第7條", true⟩] =
      Except.ok [⟨"prev", "5", none, none, none, "第7條"⟩] := ⟨rfl, rfl⟩

/-!
## Claim theorems: the resolution pass
-/

/-- Claim C9, counterexample: neither a non-positive budget nor a malformed
current-article id is surfaced as an error.  `fetch_ref_articles` with
budget 0 returns the normal empty result list (even though a reference was
supplied and the fetcher would have failed), and `compute_prev_flno` on a
malformed id returns the normal `None` (its `try/except` swallows the
parse failure), which merely makes `extract_references` skip
prev-references. -/
theorem budget_not_fatal_counterexample :
    fetch_ref_articles (fun _ => Except.error "boom")
      [⟨"explicit", "5", none, none, none, "第5條"⟩] 0 = [] ∧
    compute_prev_flno "abc" = none := ⟨rfl, rfl⟩

/-- Claim C9 as amended: a budget `b ≤ 0` is absorbed (Python slice
semantics: `b = 0` yields the empty output, a negative `b` drops the last
`|b|` references), and a malformed current-article id yields `None` so
prev-references are silently skipped — neither is a surfaced error; for a
valid budget `b > 0` at most the first `b` references are processed and the
excess is dropped. -/
theorem fetch_ref_articles_budget_spec :
    (∀ (fetchFn : String → Except String (ParsedArticle × String))
       (refs : List Ref) (b : Int),
      fetch_ref_articles fetchFn refs b = (pySliceTo b refs).map (resolveOne fetchFn)) ∧
    (∀ (b : Int), 0 < b →
      ∀ (fetchFn : String → Except String (ParsedArticle × String)) (refs : List Ref),
      fetch_ref_articles fetchFn refs b = (refs.take b.toNat).map (resolveOne fetchFn) ∧
      (fetch_ref_articles fetchFn refs b).length ≤ b.toNat) ∧
    (compute_prev_flno "abc" = none ∧
     extract_references "abc" [⟨"第5條", true⟩] = Except.ok []) := by
  refine ⟨fun _ _ _ => rfl, ?_, rfl, rfl⟩
  intro b hb fetchFn refs
  have hsl : pySliceTo b refs = refs.take b.toNat := by
    unfold pySliceTo
    rw [if_pos (le_of_lt hb)]
  constructor
  · unfold fetch_ref_articles
    rw [hsl]
  · unfold fetch_ref_articles
    rw [hsl, List.length_map]
    exact List.length_take_le _ _

/-- Witness for the amended claim C9 at a concrete budget. -/
theorem fetch_ref_articles_budget_spec_witness :
    fetch_ref_articles (fun f => Except.error f)
        [⟨"explicit", "5", none, none, none, "第5條"⟩,
         ⟨"explicit", "6", none, none, none, "第6條"⟩,
         ⟨"explicit", "7", none, none, none, "第7條"⟩] 2 =
      [RefResult.failed "第5條" "5" "5", RefResult.failed "第6條" "6" "6"] ∧
    (fetch_ref_articles (fun f => Except.error f)
        [⟨"explicit", "5", none, none, none, "第5條"⟩,
         ⟨"explicit", "6", none, none, none, "第6條"⟩,
         ⟨"explicit", "7", none, none, none, "第7條"⟩] 2).length ≤ 2 := by
  have h := fetch_ref_articles_budget_spec.2.1 2 (by decide) (fun f => Except.error f)
    [⟨"explicit", "5", none, none, none, "第5條"⟩,
     ⟨"explicit", "6", none, none, none, "第6條"⟩,
     ⟨"explicit", "7", none, none, none, "第7條"⟩]
  exact ⟨h.1.trans rfl, h.2⟩

theorem pick_item_text_mem (lines : List LawLine) (idx : Option Nat) (t : String)
    (h : pick_item_text lines idx = some t) : ∃ L ∈ lines, t = L.text := by
  unfold pick_item_text at h
  split at h
  · exact Option.noConfusion h
  · dsimp only at h
    split at h
    · obtain ⟨L, hL, hLt⟩ := Option.map_eq_some'.mp h
      refine ⟨L, ?_, hLt.symm⟩
      exact List.mem_of_mem_filter (List.get?_mem hL)
    · split at h
      · obtain ⟨L, hL, hLt⟩ := Option.map_eq_some'.mp h
        exact ⟨L, List.get?_mem hL, hLt.symm⟩
      · exact Option.noConfusion h

theorem pick_kuan_text_mem (lines : List LawLine) (idx : Option Nat) (t : String)
    (h : pick_kuan_text lines idx = some t) : ∃ L ∈ lines, t = L.text := by
  unfold pick_kuan_text at h
  split at h
  · exact Option.noConfusion h
  · dsimp only at h
    split at h
    · obtain ⟨L, hL, hLt⟩ := Option.map_eq_some'.mp h
      exact ⟨L, List.mem_of_mem_filter (List.get?_mem hL), hLt.symm⟩
    · exact Option.noConfusion h

theorem pick_mu_text_mem (lines : List LawLine) (idx : Option Nat) (t : String)
    (h : pick_mu_text lines idx = some t) : ∃ L ∈ lines, t = L.text := by
  unfold pick_mu_text at h
  split at h
  · exact Option.noConfusion h
  · dsimp only at h
    split at h
    · obtain ⟨L, hL, hLt⟩ := Option.map_eq_some'.mp h
      exact ⟨L, List.mem_of_mem_filter (List.get?_mem hL), hLt.symm⟩
    · exact Option.noConfusion h

/-- The chosen text of the selection chain is either absent or the text of
one of the target's lines. -/
theorem chosenPair_text_mem (lines : List LawLine) (r : Ref) :
    (chosenPair lines r).1 = none ∨
      ∃ L ∈ lines, (chosenPair lines r).1 = some L.text := by
  have hnone : (none : Option String) = none ∨
      ∃ L ∈ lines, (none : Option String) = some L.text := Or.inl rfl
  have hitem : pick_item_text lines r.item = none ∨
      ∃ L ∈ lines, pick_item_text lines r.item = some L.text := by
    cases hp : pick_item_text lines r.item with
    | none => exact Or.inl rfl
    | some t =>
      obtain ⟨L, hL, ht⟩ := pick_item_text_mem lines r.item t hp
      exact Or.inr ⟨L, hL, by rw [ht]⟩
  have hkuan : pick_kuan_text lines r.kuan = none ∨
      ∃ L ∈ lines, pick_kuan_text lines r.kuan = some L.text := by
    cases hp : pick_kuan_text lines r.kuan with
    | none => exact Or.inl rfl
    | some t =>
      obtain ⟨L, hL, ht⟩ := pick_kuan_text_mem lines r.kuan t hp
      exact Or.inr ⟨L, hL, by rw [ht]⟩
  have hmu : pick_mu_text lines r.mu = none ∨
      ∃ L ∈ lines, pick_mu_text lines r.mu = some L.text := by
    cases hp : pick_mu_text lines r.mu with
    | none => exact Or.inl rfl
    | some t =>
      obtain ⟨L, hL, ht⟩ := pick_mu_text_mem lines r.mu t hp
      exact Or.inr ⟨L, hL, by rw [ht]⟩
  unfold chosenPair
  dsimp only
  repeat' split
  all_goals first
    | exact hmu
    | exact hkuan
    | exact hitem
    | exact hnone

/-- Claim C6: the resolution pass maps each of the first `max_refs`
references to exactly one output entry, independently of the others; a
fetch failure produces the failure entry carrying only the matched text,
the requested target id and the error; a fetch success produces the full
entry, whose fallback `lines` field carries the whole target line list
exactly when `selected_text` is null (given the parser's invariant that
extracted line texts are non-empty), and whose selected text, when present,
is the text of one of the target's lines. -/
theorem fetch_ref_articles_error_isolation :
    (∀ (fetchFn : String → Except String (ParsedArticle × String))
       (refs : List Ref) (b : Int),
      fetch_ref_articles fetchFn refs b = (pySliceTo b refs).map (resolveOne fetchFn)) ∧
    (∀ (fetchFn : String → Except String (ParsedArticle × String)) (r : Ref) (e : String),
      fetchFn r.flno = Except.error e →
      resolveOne fetchFn r = RefResult.failed r.hit r.flno e) ∧
    (∀ (fetchFn : String → Except String (ParsedArticle × String)) (r : Ref)
       (parsed : ParsedArticle) (url : String),
      fetchFn r.flno = Except.ok (parsed, url) →
      (∀ L ∈ parsed.lines, ¬ L.text = "") →
      resolveOne fetchFn r =
        RefResult.entry r.hit parsed.flno parsed.no_text url r.item r.kuan r.mu
          (chosenPair parsed.lines r).2 (chosenPair parsed.lines r).1
          (if (chosenPair parsed.lines r).1 = none then some parsed.lines else none) ∧
      ((chosenPair parsed.lines r).1 = none ∨
        ∃ L ∈ parsed.lines, (chosenPair parsed.lines r).1 = some L.text)) := by
  refine ⟨fun _ _ _ => rfl, ?_, ?_⟩
  · intro fetchFn r e hf
    unfold resolveOne
    rw [hf]
  · intro fetchFn r parsed url hf hne
    refine ⟨?_, chosenPair_text_mem parsed.lines r⟩
    have hif : (if pyTruthyOS (chosenPair parsed.lines r).1 = true then
          (none : Option (List LawLine)) else some parsed.lines) =
        (if (chosenPair parsed.lines r).1 = none then some parsed.lines else none) := by
      rcases chosenPair_text_mem parsed.lines r with hc | ⟨L, hL, hc⟩
      · rw [hc]
        simp [pyTruthyOS]
      · rw [hc]
        have hfalse : L.text.isEmpty = false := by
          cases hi : L.text.isEmpty
          · rfl
          · exact absurd ((String.isEmpty_iff L.text).mp hi) (hne L hL)
        simp [pyTruthyOS, hfalse]
    unfold resolveOne
    rw [hf]
    dsimp only
    rw [hif]

/-- Witness for claim C6: a two-reference batch in which the second fetch
fails; the first entry is fully populated (its fallback lines attached
because no sub-unit was requested), the second carries only the error, and
the failure leaves the first entry untouched. -/
theorem fetch_ref_articles_error_isolation_witness :
    resolveOne (fun f => if f = "5" then
        Except.ok (⟨some "第 5 條", some "5", [⟨"內容甲", true⟩]⟩, "u5")
      else Except.error "fetch failed")
      ⟨"explicit", "5", none, none, none, "第5條"⟩ =
      RefResult.entry "第5條" (some "5") (some "第 5 條") "u5" none none none
        none none (some [⟨"內容甲", true⟩]) ∧
    resolveOne (fun f => if f = "5" then
        Except.ok (⟨some "第 5 條", some "5", [⟨"內容甲", true⟩]⟩, "u5")
      else Except.error "fetch failed")
      ⟨"explicit", "6", none, none, none, "第6條"⟩ =
      RefResult.failed "第6條" "6" "fetch failed" ∧
    fetch_ref_articles (fun f => if f = "5" then
        Except.ok (⟨some "第 5 條", some "5", [⟨"內容甲", true⟩]⟩, "u5")
      else Except.error "fetch failed")
      [⟨"explicit", "5", none, none, none, "第5條"⟩,
       ⟨"explicit", "6", none, none, none, "第6條"⟩] 20 =
      [RefResult.entry "第5條" (some "5") (some "第 5 條") "u5" none none none
        none none (some [⟨"內容甲", true⟩]),
       RefResult.failed "第6條" "6" "fetch failed"] := by
  refine ⟨?_, ?_, ?_⟩
  · have h := (fetch_ref_articles_error_isolation.2.2
      (fun f => if f = "5" then
        Except.ok (⟨some "第 5 條", some "5", [⟨"內容甲", true⟩]⟩, "u5")
      else Except.error "fetch failed")
      ⟨"explicit", "5", none, none, none, "第5條"⟩
      ⟨some "第 5 條", some "5", [⟨"內容甲", true⟩]⟩ "u5"
      rfl (by decide)).1
    exact h.trans (by decide)
  · exact fetch_ref_articles_error_isolation.2.1
      (fun f => if f = "5" then
        Except.ok (⟨some "第 5 條", some "5", [⟨"內容甲", true⟩]⟩, "u5")
      else Except.error "fetch failed")
      ⟨"explicit", "6", none, none, none, "第6條"⟩ "fetch failed" rfl
  · exact (fetch_ref_articles_error_isolation.1
      (fun f => if f = "5" then
        Except.ok (⟨some "第 5 條", some "5", [⟨"內容甲", true⟩]⟩, "u5")
      else Except.error "fetch failed")
      [⟨"explicit", "5", none, none, none, "第5條"⟩,
       ⟨"explicit", "6", none, none, none, "第6條"⟩] 20).trans (by decide)

/-!
## At most one of item / kuan / mu is ever set on a produced reference
-/

/-- At most one of the three sub-unit indices of a reference is set. -/
def atMostOneIdx (r : Ref) : Prop :=
  (r.item = none ∧ r.kuan = none) ∨ (r.item = none ∧ r.mu = none) ∨
    (r.kuan = none ∧ r.mu = none)

theorem kindSlots_atMostOne (kd : Option String) (n : Option Nat) :
    ((kindSlots kd n).1 = none ∧ (kindSlots kd n).2.1 = none) ∨
    ((kindSlots kd n).1 = none ∧ (kindSlots kd n).2.2 = none) ∨
    ((kindSlots kd n).2.1 = none ∧ (kindSlots kd n).2.2 = none) := by
  unfold kindSlots
  split
  · exact Or.inr (Or.inr ⟨rfl, rfl⟩)
  · exact Or.inr (Or.inl ⟨rfl, rfl⟩)
  · exact Or.inl ⟨rfl, rfl⟩
  · exact Or.inl ⟨rfl, rfl⟩

theorem candsRange_item_atMostOne (gA gS gE : String) (cap : Nat) (m : MRes) :
    ∀ c ∈ candsRange gA gS gE cap mkItemRef m, atMostOneIdx c := by
  intro c hc
  unfold candsRange at hc
  dsimp only at hc
  split at hc
  · obtain ⟨k, _, hk⟩ := List.mem_map.mp hc
    rw [← hk]
    exact Or.inr (Or.inr ⟨rfl, rfl⟩)
  · split at hc
    · rw [List.mem_singleton.mp hc]
      exact Or.inr (Or.inr ⟨rfl, rfl⟩)
    · cases hc

theorem candsRange_kuan_atMostOne (gA gS gE : String) (cap : Nat) (m : MRes) :
    ∀ c ∈ candsRange gA gS gE cap mkKuanRef m, atMostOneIdx c := by
  intro c hc
  unfold candsRange at hc
  dsimp only at hc
  split at hc
  · obtain ⟨k, _, hk⟩ := List.mem_map.mp hc
    rw [← hk]
    exact Or.inr (Or.inl ⟨rfl, rfl⟩)
  · split at hc
    · rw [List.mem_singleton.mp hc]
      exact Or.inr (Or.inl ⟨rfl, rfl⟩)
    · cases hc

theorem candsRange_mu_atMostOne (gA gS gE : String) (cap : Nat) (m : MRes) :
    ∀ c ∈ candsRange gA gS gE cap mkMuRef m, atMostOneIdx c := by
  intro c hc
  unfold candsRange at hc
  dsimp only at hc
  split at hc
  · obtain ⟨k, _, hk⟩ := List.mem_map.mp hc
    rw [← hk]
    exact Or.inl ⟨rfl, rfl⟩
  · split at hc
    · rw [List.mem_singleton.mp hc]
      exact Or.inl ⟨rfl, rfl⟩
    · cases hc

theorem candsSingle_item_atMostOne (gA gY : String) (m : MRes) :
    ∀ c ∈ candsSingle gA gY mkItemRef m, atMostOneIdx c := by
  intro c hc
  unfold candsSingle at hc
  dsimp only at hc
  split at hc
  · rw [List.mem_singleton.mp hc]
    exact Or.inr (Or.inr ⟨rfl, rfl⟩)
  · cases hc

theorem candsSingle_kuan_atMostOne (gA gY : String) (m : MRes) :
    ∀ c ∈ candsSingle gA gY mkKuanRef m, atMostOneIdx c := by
  intro c hc
  unfold candsSingle at hc
  dsimp only at hc
  split at hc
  · rw [List.mem_singleton.mp hc]
    exact Or.inr (Or.inl ⟨rfl, rfl⟩)
  · cases hc

theorem cands6_atMostOne (prev : Option String) (m : MRes) (cs : List Ref)
    (h : cands6 prev m = Except.ok cs) : ∀ c ∈ cs, atMostOneIdx c := by
  unfold cands6 at h
  split at h
  · cases h
    intro c hc
    cases hc
  · dsimp only at h
    cases hg : mgroupE m "art_only" with
    | error e => simp only [hg] at h; exact Except.noConfusion h
    | ok a =>
      simp only [hg] at h
      cases hprev : (!pyTruthyOS prev) with
      | true =>
        simp only [hprev, if_true] at h
        cases h
        intro c hc
        split at hc
        · rw [List.mem_singleton.mp hc]
          exact Or.inl ⟨rfl, rfl⟩
        · cases hc
      | false =>
        simp only [hprev, if_false, Bool.false_eq_true] at h
        cases hg2 : mgroupE m "prev_nzh" with
        | error e => simp only [hg2] at h; exact Except.noConfusion h
        | ok nraw =>
          simp only [hg2] at h
          cases hg3 : mgroupE m "prev_kind" with
          | error e => simp only [hg3] at h; exact Except.noConfusion h
          | ok kd =>
            simp only [hg3] at h
            cases h
            intro c hc
            rcases List.mem_append.mp hc with hc1 | hc2
            · split at hc1
              · rw [List.mem_singleton.mp hc1]
                exact Or.inl ⟨rfl, rfl⟩
              · cases hc1
            · rw [List.mem_singleton.mp hc2]
              exact kindSlots_atMostOne kd _

theorem cands7_atMostOne (prev : Option String) (m : MRes) :
    ∀ c ∈ cands7 prev m, atMostOneIdx c := by
  intro c hc
  unfold cands7 at hc
  split at hc
  · cases hc
  · rw [List.mem_singleton.mp hc]
    exact kindSlots_atMostOne _ _

theorem mapM_mem_ok (f : MRes → Except String (List Ref)) :
    ∀ (ms : List MRes) (bs : List (List Ref)), ms.mapM f = Except.ok bs →
      ∀ l ∈ bs, ∃ m ∈ ms, f m = Except.ok l := by
  intro ms
  induction ms with
  | nil =>
    intro bs h l hl
    rw [List.mapM_nil] at h
    cases h
    cases hl
  | cons m0 ms ih =>
    intro bs h l hl
    rw [List.mapM_cons] at h
    cases hf : f m0 with
    | error e => rw [hf] at h; exact Except.noConfusion h
    | ok l0 =>
      rw [hf] at h
      cases hms : ms.mapM f with
      | error e => rw [hms] at h; exact Except.noConfusion h
      | ok bs' =>
        rw [hms] at h
        have hbs : l0 :: bs' = bs := Except.ok.inj h
        rw [← hbs] at hl
        rcases List.mem_cons.mp hl with heq | hmem
        · exact ⟨m0, by simp, by rw [hf, heq]⟩
        · obtain ⟨m, hm, hfm⟩ := ih bs' hms l hmem
          exact ⟨m, by simp [hm], hfm⟩

/-- Every candidate produced by a line carries at most one sub-unit
index. -/
theorem lineCands_atMostOne (prev : Option String) (text : String) (cs : List Ref)
    (h : lineCands prev text = Except.ok cs) : ∀ c ∈ cs, atMostOneIdx c := by
  unfold lineCands at h
  dsimp only at h
  cases hb6 : (finditer matchAt5 text.toList).mapM (cands6 prev) with
  | error e => simp only [hb6] at h; exact Except.noConfusion h
  | ok bs =>
    simp only [hb6] at h
    cases h
    intro c hc
    rcases List.mem_append.mp hc with hc | hc7
    rotate_left
    · obtain ⟨l, hl, hcl⟩ := List.mem_flatten.mp hc7
      obtain ⟨m, _, rfl⟩ := List.mem_map.mp hl
      exact cands7_atMostOne prev m c hcl
    rcases List.mem_append.mp hc with hc | hc6
    rotate_left
    · obtain ⟨l, hl, hcl⟩ := List.mem_flatten.mp hc6
      obtain ⟨m, hm, hfm⟩ := mapM_mem_ok (cands6 prev) _ bs hb6 l hl
      exact cands6_atMostOne prev m l hfm c hcl
    rcases List.mem_append.mp hc with hc | hc5
    rotate_left
    · obtain ⟨l, hl, hcl⟩ := List.mem_flatten.mp hc5
      obtain ⟨m, _, rfl⟩ := List.mem_map.mp hl
      exact candsRange_mu_atMostOne _ _ _ _ m c hcl
    rcases List.mem_append.mp hc with hc | hc4
    rotate_left
    · obtain ⟨l, hl, hcl⟩ := List.mem_flatten.mp hc4
      obtain ⟨m, _, rfl⟩ := List.mem_map.mp hl
      exact candsSingle_kuan_atMostOne _ _ m c hcl
    rcases List.mem_append.mp hc with hc | hc3
    rotate_left
    · obtain ⟨l, hl, hcl⟩ := List.mem_flatten.mp hc3
      obtain ⟨m, _, rfl⟩ := List.mem_map.mp hl
      exact candsRange_kuan_atMostOne _ _ _ _ m c hcl
    rcases List.mem_append.mp hc with hc1 | hc2
    · obtain ⟨l, hl, hcl⟩ := List.mem_flatten.mp hc1
      obtain ⟨m, _, rfl⟩ := List.mem_map.mp hl
      exact candsRange_item_atMostOne _ _ _ _ m c hcl
    · obtain ⟨l, hl, hcl⟩ := List.mem_flatten.mp hc2
      obtain ⟨m, _, rfl⟩ := List.mem_map.mp hl
      exact candsSingle_item_atMostOne _ _ m c hcl

theorem add_ref_mem_or (st : ExtState) (r x : Ref)
    (hx : x ∈ (add_ref st r).refs) : x ∈ st.refs ∨ x = r := by
  unfold add_ref at hx
  split at hx
  · exact Or.inl hx
  · rcases List.mem_append.mp hx with h1 | h2
    · exact Or.inl h1
    · exact Or.inr (List.mem_singleton.mp h2)

theorem foldAdd_pres (P : Ref → Prop) (cs : List Ref) : ∀ st : ExtState,
    (∀ x ∈ st.refs, P x) → (∀ c ∈ cs, P c) →
    ∀ x ∈ (foldAdd st cs).refs, P x := by
  induction cs with
  | nil => intro st hst _ x hx; exact hst x hx
  | cons c cs ih =>
    intro st hst hcs x hx
    refine ih (add_ref st c) ?_ (fun y hy => hcs y (by simp [hy])) x hx
    intro y hy
    rcases add_ref_mem_or st c y hy with h1 | h2
    · exact hst y h1
    · rw [h2]; exact hcs c (by simp)

theorem extLoop_pres (P : Ref → Prop) (prev : Option String) (lines : List LawLine) :
    ∀ st st', (∀ x ∈ st.refs, P x) →
    (∀ ln ∈ lines, ∀ cs, lineCands prev ln.text = Except.ok cs → ∀ c ∈ cs, P c) →
    extLoop prev st lines = Except.ok st' → ∀ x ∈ st'.refs, P x := by
  induction lines with
  | nil =>
    intro st st' hst _ h
    simp only [extLoop] at h
    cases h
    exact hst
  | cons ln ls ih =>
    intro st st' hst hlines h
    simp only [extLoop] at h
    cases hcs : lineCands prev ln.text with
    | error e => rw [hcs] at h; exact Except.noConfusion h
    | ok cs =>
      rw [hcs] at h
      refine ih (foldAdd st cs) st' ?_ (fun l hl => hlines l (by simp [hl])) h
      exact foldAdd_pres P cs st hst (hlines ln (by simp) cs hcs)

/-- Every reference produced by `extract_references` carries at most one
sub-unit index. -/
theorem extract_references_atMostOne (main : String) (lines : List LawLine)
    (rs : List Ref) (h : extract_references main lines = Except.ok rs) :
    ∀ x ∈ rs, atMostOneIdx x := by
  unfold extract_references at h
  cases hloop : extLoop (compute_prev_flno main) ⟨[], []⟩ lines with
  | error e => rw [hloop] at h; exact Except.noConfusion h
  | ok st' =>
    rw [hloop] at h
    have hrs : st'.refs = rs := Except.ok.inj h
    rw [← hrs]
    exact extLoop_pres atMostOneIdx (compute_prev_flno main) lines ⟨[], []⟩ st'
      (fun x hx => absurd hx (by simp))
      (fun ln _ cs hcs => lineCands_atMostOne _ _ cs hcs) hloop

theorem pyTruthyON_none : pyTruthyON none = false := rfl

theorem pyTruthyOS_none : pyTruthyOS none = false := rfl

/-- Claim C10: on the success path, whenever the reference requests a
sub-unit (and, as `extract_references` guarantees, at most one of
item/kuan/mu is set), `selected_level` is non-null and names the requested
level even when extraction of that sub-unit failed; and whenever
`selected_text` is null the full target line list is attached as fallback.
`selected_level` records which level was attempted, not that a sub-unit
was extracted. -/
theorem resolveOne_selected_level :
    (∀ (fetchFn : String → Except String (ParsedArticle × String)) (r : Ref)
       (parsed : ParsedArticle) (url : String),
      fetchFn r.flno = Except.ok (parsed, url) →
      ((pyTruthyON r.item = true → r.kuan = none → r.mu = none →
          selLevelOf (resolveOne fetchFn r) = some "item") ∧
       (r.item = none → pyTruthyON r.kuan = true → r.mu = none →
          selLevelOf (resolveOne fetchFn r) = some "kuan") ∧
       (r.item = none → r.kuan = none → pyTruthyON r.mu = true →
          selLevelOf (resolveOne fetchFn r) = some "mu") ∧
       (selTextOf (resolveOne fetchFn r) = none →
          linesOf (resolveOne fetchFn r) = some parsed.lines))) ∧
    (∀ (main : String) (lines : List LawLine) (rs : List Ref),
      extract_references main lines = Except.ok rs → ∀ x ∈ rs, atMostOneIdx x) := by
  refine ⟨?_, extract_references_atMostOne⟩
  intro fetchFn r parsed url hf
  have hres : resolveOne fetchFn r =
      RefResult.entry r.hit parsed.flno parsed.no_text url r.item r.kuan r.mu
        (chosenPair parsed.lines r).2 (chosenPair parsed.lines r).1
        (if pyTruthyOS (chosenPair parsed.lines r).1 = true then none
         else some parsed.lines) := by
    unfold resolveOne
    rw [hf]
  refine ⟨?_, ?_, ?_, ?_⟩
  · intro hit hk hm
    rw [hres]
    have : (chosenPair parsed.lines r).2 = some "item" := by
      simp [chosenPair, hit, hk, hm, pyTruthyON_none]
    simp [selLevelOf, this]
  · intro hi hk hm
    rw [hres]
    have : (chosenPair parsed.lines r).2 = some "kuan" := by
      simp [chosenPair, hi, hk, hm, pyTruthyON_none, pyTruthyOS_none]
    simp [selLevelOf, this]
  · intro hi hk hm
    rw [hres]
    have : (chosenPair parsed.lines r).2 = some "mu" := by
      simp [chosenPair, hi, hk, hm, pyTruthyON_none, pyTruthyOS_none]
    simp [selLevelOf, this]
  · intro hsel
    rw [hres] at hsel ⊢
    simp only [selTextOf] at hsel
    simp only [linesOf]
    rw [hsel]
    simp [pyTruthyOS]

/-- Witness for claim C10: a reference requesting item 3 of a target with a
single line — extraction fails, yet `selected_level` is "item" and the full
line list is returned. -/
theorem resolveOne_selected_level_witness :
    selLevelOf (resolveOne
      (fun _ => Except.ok (⟨some "第 9 條", some "9", [⟨"唯一內容", false⟩]⟩, "u9"))
      ⟨"explicit", "9", some 3, none, none, "第9條第三項"⟩) = some "item" ∧
    selTextOf (resolveOne
      (fun _ => Except.ok (⟨some "第 9 條", some "9", [⟨"唯一內容", false⟩]⟩, "u9"))
      ⟨"explicit", "9", some 3, none, none, "第9條第三項"⟩) = none ∧
    linesOf (resolveOne
      (fun _ => Except.ok (⟨some "第 9 條", some "9", [⟨"唯一內容", false⟩]⟩, "u9"))
      ⟨"explicit", "9", some 3, none, none, "第9條第三項"⟩) =
      some [⟨"唯一內容", false⟩] := by
  have h := resolveOne_selected_level.1
    (fun _ => Except.ok (⟨some "第 9 條", some "9", [⟨"唯一內容", false⟩]⟩, "u9"))
    ⟨"explicit", "9", some 3, none, none, "第9條第三項"⟩
    ⟨some "第 9 條", some "9", [⟨"唯一內容", false⟩]⟩ "u9" rfl
  refine ⟨h.1 (by decide) rfl rfl, by decide, ?_⟩
  exact h.2.2.2 (by decide)

/-!
## Claim theorems: extraction robustness, deduplication, range expansion
-/

/-- Claim C3: `extract_references` never raises — for every current-article
id and every line list it returns a reference list (the only fallible step,
the `m.group("art_only")` call of the loop that scans the single-目
pattern, is unreachable because that pattern's matches always contain 目);
and a candidate whose article id or start numeral fails to parse is
discarded alone: its match contributes no candidates, while the scan
continues over the remaining matches and lines. -/
theorem extract_references_no_abort :
    (∀ (main_flno : String) (lines : List LawLine),
      ∃ rs, extract_references main_flno lines = Except.ok rs) ∧
    (∀ m : MRes, pyTruthyOS (normalize_art ((mgroupGet m "art_r1").getD "")) = false →
      candsRange "art_r1" "itemzh_start" "itemzh_end" 30 mkItemRef m = []) ∧
    (∀ m : MRes, pyTruthyON (zh_to_int ((mgroupGet m "itemzh_start").getD "")) = false →
      candsRange "art_r1" "itemzh_start" "itemzh_end" 30 mkItemRef m = []) := by
  refine ⟨?_, ?_, ?_⟩
  · intro main lines
    obtain ⟨st', h⟩ := extLoop_ok (compute_prev_flno main) lines ⟨[], []⟩
    refine ⟨st'.refs, ?_⟩
    unfold extract_references
    rw [h]
    rfl
  · intro m hart
    unfold candsRange
    simp [hart]
  · intro m hy
    unfold candsRange
    simp [hy]

/-- Witness for claim C3: a run on a concrete article, and a concrete match
whose article capture ("之" — not a numeral) is discarded alone. -/
theorem extract_references_no_abort_witness :
    (∃ rs, extract_references "16-1" [⟨"第5條第一項", true⟩] = Except.ok rs) ∧
    candsRange "art_r1" "itemzh_start" "itemzh_end" 30 mkItemRef
      ⟨[("art_r1", some "之"), ("itemzh_start", some "一"),
        ("itemzh_end", some "三")], [], []⟩ = [] := by
  refine ⟨extract_references_no_abort.1 "16-1" [⟨"第5條第一項", true⟩], ?_⟩
  exact extract_references_no_abort.2.1 _ (by decide)

theorem extLoop_append (prev : Option String) (l1 l2 : List LawLine) :
    ∀ st, extLoop prev st (l1 ++ l2) =
      (match extLoop prev st l1 with
       | Except.error e => Except.error e
       | Except.ok st1 => extLoop prev st1 l2) := by
  induction l1 with
  | nil => intro st; rfl
  | cons ln ls ih =>
    intro st
    simp only [List.cons_append, extLoop]
    cases hcs : lineCands prev ln.text with
    | error e => simp only [hcs]
    | ok cs =>
      simp only [hcs]
      exact ih (foldAdd st cs)

/-- Re-running the line loop from a state that already saw every candidate
key changes nothing. -/
theorem extLoop_stable (prev : Option String) (l : List LawLine) (S : ExtState)
    (h : ∀ ln ∈ l, ∀ cs, lineCands prev ln.text = Except.ok cs →
      ∀ c ∈ cs, refKey c ∈ S.seen) :
    extLoop prev S l = Except.ok S := by
  induction l with
  | nil => rfl
  | cons ln ls ih =>
    obtain ⟨cs, hcs⟩ := lineCands_ok prev ln.text
    simp only [extLoop, hcs]
    rw [foldAdd_noop cs S (h ln (by simp) cs hcs)]
    exact ih (fun l2 hl2 cs2 hcs2 => h l2 (by simp [hl2]) cs2 hcs2)

/-- The identity keys of the output of `extract_references` are pairwise
distinct. -/
theorem extract_references_nodupKeys (main : String) (lines : List LawLine)
    (rs : List Ref) (h : extract_references main lines = Except.ok rs) :
    (rs.map refKey).Nodup := by
  unfold extract_references at h
  cases hloop : extLoop (compute_prev_flno main) ⟨[], []⟩ lines with
  | error e => rw [hloop] at h; exact Except.noConfusion h
  | ok st' =>
    rw [hloop] at h
    have hrs : st'.refs = rs := Except.ok.inj h
    have hg : GoodSt st' := extLoop_good (compute_prev_flno main) lines ⟨[], []⟩ st'
      ⟨rfl, List.nodup_nil⟩ hloop
    rw [← hrs, ← hg.1]
    exact hg.2

/-- Every candidate key of every processed line appears among the output
keys of `extract_references`. -/
theorem extract_references_key_mem (main : String) (lines : List LawLine)
    (rs : List Ref) (h : extract_references main lines = Except.ok rs)
    (ln : LawLine) (hln : ln ∈ lines) (cs : List Ref)
    (hcs : lineCands (compute_prev_flno main) ln.text = Except.ok cs) :
    ∀ c ∈ cs, refKey c ∈ rs.map refKey := by
  unfold extract_references at h
  cases hloop : extLoop (compute_prev_flno main) ⟨[], []⟩ lines with
  | error e => rw [hloop] at h; exact Except.noConfusion h
  | ok st' =>
    rw [hloop] at h
    have hrs : st'.refs = rs := Except.ok.inj h
    have hg : GoodSt st' := extLoop_good (compute_prev_flno main) lines ⟨[], []⟩ st'
      ⟨rfl, List.nodup_nil⟩ hloop
    intro c hc
    rw [← hrs, ← hg.1]
    exact extLoop_key_mem (compute_prev_flno main) lines ⟨[], []⟩ st' hloop
      ln hln cs hcs c hc

/-- Claim C7: reference identity for deduplication is the tuple
(kind, targetId, item, clause, subitem): the output of
`extract_references` never contains two references with the same identity
tuple, re-scanning the same lines a second time adds nothing, and a line
containing the same citation phrase twice yields exactly one reference. -/
theorem extract_references_dedup :
    (∀ (main : String) (lines : List LawLine) (rs : List Ref),
      extract_references main lines = Except.ok rs → (rs.map refKey).Nodup) ∧
    (∀ (main : String) (lines : List LawLine),
      extract_references main (lines ++ lines) = extract_references main lines) ∧
    extract_references "" [⟨"第5條第一項及第5條第一項", true⟩] =
      Except.ok [⟨"explicit", "5", some 1, none, none, "第5條第一項"⟩] := by
  refine ⟨extract_references_nodupKeys, ?_, rfl⟩
  intro main lines
  obtain ⟨S1, h1⟩ := extLoop_ok (compute_prev_flno main) lines ⟨[], []⟩
  have hstable : extLoop (compute_prev_flno main) S1 lines = Except.ok S1 :=
    extLoop_stable (compute_prev_flno main) lines S1
      (fun ln hln cs hcs =>
        extLoop_key_mem (compute_prev_flno main) lines ⟨[], []⟩ S1 h1 ln hln cs hcs)
  unfold extract_references
  rw [extLoop_append (compute_prev_flno main) lines lines ⟨[], []⟩]
  simp only [h1]
  rw [hstable]

/-- Witness for C7: the nodup-keys conjunct applied at the concrete
doubled-phrase line, whose extraction result is computed by `rfl`. -/
theorem extract_references_dedup_witness :
    (([⟨"explicit", "5", some 1, none, none, "第5條第一項"⟩] : List Ref).map refKey).Nodup :=
  extract_references_dedup.1 "" [⟨"第5條第一項及第5條第一項", true⟩]
    [⟨"explicit", "5", some 1, none, none, "第5條第一項"⟩] rfl

/-- The candidates contributed by the three range loops of a line are part
of that line's candidate list. -/
theorem lineCands_mem_ranges (prev : Option String) (text : String) (cs : List Ref)
    (h : lineCands prev text = Except.ok cs) :
    (∀ m ∈ finditer matchAt0 text.toList,
      ∀ c ∈ candsRange "art_r1" "itemzh_start" "itemzh_end" 30 mkItemRef m, c ∈ cs) ∧
    (∀ m ∈ finditer matchAt2 text.toList,
      ∀ c ∈ candsRange "art_k1" "kuanzh_start" "kuanzh_end" 50 mkKuanRef m, c ∈ cs) ∧
    (∀ m ∈ finditer matchAt4 text.toList,
      ∀ c ∈ candsRange "art_m1" "muzh_start" "muzh_end" 50 mkMuRef m, c ∈ cs) := by
  unfold lineCands at h
  dsimp only at h
  cases hb6 : (finditer matchAt5 text.toList).mapM (cands6 prev) with
  | error e => simp only [hb6] at h; exact Except.noConfusion h
  | ok bs =>
    simp only [hb6] at h
    cases h
    refine ⟨?_, ?_, ?_⟩
    · intro m hm c hc
      exact List.mem_append_left _ (List.mem_append_left _ (List.mem_append_left _
        (List.mem_append_left _ (List.mem_append_left _ (List.mem_append_left _
          (List.mem_flatten.mpr ⟨_, List.mem_map_of_mem _ hm, hc⟩))))))
    · intro m hm c hc
      exact List.mem_append_left _ (List.mem_append_left _ (List.mem_append_left _
        (List.mem_append_left _ (List.mem_append_right _
          (List.mem_flatten.mpr ⟨_, List.mem_map_of_mem _ hm, hc⟩)))))
    · intro m hm c hc
      exact List.mem_append_left _ (List.mem_append_left _ (List.mem_append_right _
        (List.mem_flatten.mpr ⟨_, List.mem_map_of_mem _ hm, hc⟩)))

/-- The range-expansion policy of one range-pattern match, when article
and both endpoints parse: expand `[y, z]` when `y ≤ z` and `z − y` is
within the cap, otherwise collapse to the start index alone — the match is
never dropped and never expanded beyond the cap. -/
theorem candsRange_policy (gA gS gE : String) (cap : Nat)
    (mk : String → Nat → String → Ref) (m : MRes) (a : String) (y z : Nat)
    (ha : normalize_art ((mgroupGet m gA).getD "") = some a) (ha2 : ¬ a = "")
    (hy : zh_to_int ((mgroupGet m gS).getD "") = some y) (hy2 : ¬ y = 0)
    (hz : zh_to_int ((mgroupGet m gE).getD "") = some z) (hz2 : ¬ z = 0) :
    (y ≤ z ∧ z - y ≤ cap →
      candsRange gA gS gE cap mk m =
        (List.range' y (z - y + 1)).map (fun k => mk a k (String.mk m.hit))) ∧
    (¬(y ≤ z ∧ z - y ≤ cap) →
      candsRange gA gS gE cap mk m = [mk a y (String.mk m.hit)]) := by
  have hae : a.isEmpty = false := by
    cases he : a.isEmpty
    · rfl
    · exact absurd ((String.isEmpty_iff a).mp he) ha2
  constructor
  · rintro ⟨h1, h2⟩
    unfold candsRange
    simp [ha, hy, hz, hae, pyTruthyOS, pyTruthyON, h1, h2, hy2, hz2]
  · intro hnot
    unfold candsRange
    by_cases h1 : y ≤ z
    · have h2 : ¬ z - y ≤ cap := fun h2 => hnot ⟨h1, h2⟩
      simp [ha, hy, hz, hae, pyTruthyOS, pyTruthyON, h1, h2, hy2, hz2]
    · simp [ha, hy, hz, hae, pyTruthyOS, pyTruthyON, h1, hy2, hz2]

/-- Claim C1, counterexample: in the claim's own instance
"第5條第1項至第3項" the sub-unit indices are ASCII digits, but the
item/clause/sub-item capture classes of `REF_PATTERNS` accept Chinese
numerals only, so the line produces no reference at all (the claim requires
exactly three Explicit references to article "5"). -/
theorem range_ascii_counterexample :
    extract_references "" [⟨"第5條第1項至第3項", true⟩] = Except.ok [] := rfl

/-- Claim C1 as amended (sub-unit indices are written in Chinese numerals,
as in the spec's own grammar): for every range-pattern match whose article
id and endpoints `y, z` parse, the match expands into one candidate per
index of `[y, z]` when `y ≤ z` and `z − y` lies within the per-level cap
(30 for items, 50 for clauses and sub-items, as instantiated in
`lineCands`), and otherwise collapses to the single start index — never
dropped, never expanded beyond the cap; every such candidate of every
processed line appears (by identity) in the output of
`extract_references`, whose identity keys are pairwise distinct (so "one
Reference per index" is exact); and the two sample inputs behave as the
spec requires. -/
theorem extract_references_range_expansion :
    (∀ (gA gS gE : String) (cap : Nat) (mk : String → Nat → String → Ref)
       (m : MRes) (a : String) (y z : Nat),
      normalize_art ((mgroupGet m gA).getD "") = some a → ¬ a = "" →
      zh_to_int ((mgroupGet m gS).getD "") = some y → ¬ y = 0 →
      zh_to_int ((mgroupGet m gE).getD "") = some z → ¬ z = 0 →
      (y ≤ z ∧ z - y ≤ cap →
        candsRange gA gS gE cap mk m =
          (List.range' y (z - y + 1)).map (fun k => mk a k (String.mk m.hit))) ∧
      (¬(y ≤ z ∧ z - y ≤ cap) →
        candsRange gA gS gE cap mk m = [mk a y (String.mk m.hit)])) ∧
    (∀ (prev : Option String) (text : String) (cs : List Ref),
      lineCands prev text = Except.ok cs →
      (∀ m ∈ finditer matchAt0 text.toList,
        ∀ c ∈ candsRange "art_r1" "itemzh_start" "itemzh_end" 30 mkItemRef m, c ∈ cs) ∧
      (∀ m ∈ finditer matchAt2 text.toList,
        ∀ c ∈ candsRange "art_k1" "kuanzh_start" "kuanzh_end" 50 mkKuanRef m, c ∈ cs) ∧
      (∀ m ∈ finditer matchAt4 text.toList,
        ∀ c ∈ candsRange "art_m1" "muzh_start" "muzh_end" 50 mkMuRef m, c ∈ cs)) ∧
    (∀ (main : String) (lines : List LawLine) (rs : List Ref),
      extract_references main lines = Except.ok rs →
      ∀ ln ∈ lines, ∀ cs, lineCands (compute_prev_flno main) ln.text = Except.ok cs →
        ∀ c ∈ cs, refKey c ∈ rs.map refKey) ∧
    (∀ (main : String) (lines : List LawLine) (rs : List Ref),
      extract_references main lines = Except.ok rs → (rs.map refKey).Nodup) ∧
    (extract_references "" [⟨"第5條第一項至第三項", true⟩] =
      Except.ok [⟨"explicit", "5", some 1, none, none, "第5條第一項至第三項"⟩,
                 ⟨"explicit", "5", some 2, none, none, "第5條第一項至第三項"⟩,
                 ⟨"explicit", "5", some 3, none, none, "第5條第一項至第三項"⟩]) ∧
    (extract_references "" [⟨"第5條第一項至第四十一項", true⟩] =
      Except.ok [⟨"explicit", "5", some 1, none, none, "第5條第一項至第四十一項"⟩]) := by
  exact ⟨candsRange_policy, lineCands_mem_ranges,
    extract_references_key_mem, extract_references_nodupKeys, rfl, rfl⟩

/-- Witness for the amended claim C1 at a concrete match: the in-cap range
一至三 expands to indices 1, 2, 3 and the out-of-cap range 一至四十一
collapses to its start index. -/
theorem extract_references_range_expansion_witness :
    candsRange "art_r1" "itemzh_start" "itemzh_end" 30 mkItemRef
      ⟨[("art_r1", some "5"), ("itemzh_start", some "一"),
        ("itemzh_end", some "三")], "第5條第一項至第三項".toList, []⟩ =
      [⟨"explicit", "5", some 1, none, none, "第5條第一項至第三項"⟩,
       ⟨"explicit", "5", some 2, none, none, "第5條第一項至第三項"⟩,
       ⟨"explicit", "5", some 3, none, none, "第5條第一項至第三項"⟩] ∧
    candsRange "art_r1" "itemzh_start" "itemzh_end" 30 mkItemRef
      ⟨[("art_r1", some "5"), ("itemzh_start", some "一"),
        ("itemzh_end", some "四十一")], "第5條第一項至第四十一項".toList, []⟩ =
      [⟨"explicit", "5", some 1, none, none, "第5條第一項至第四十一項"⟩] := by
  constructor
  · have h := (extract_references_range_expansion.1 "art_r1" "itemzh_start" "itemzh_end"
      30 mkItemRef
      ⟨[("art_r1", some "5"), ("itemzh_start", some "一"),
        ("itemzh_end", some "三")], "第5條第一項至第三項".toList, []⟩
      "5" 1 3 (by decide) (by decide) (by decide) (by decide) (by decide) (by decide)).1
      ⟨by decide, by decide⟩
    exact h.trans (by decide)
  · have h := (extract_references_range_expansion.1 "art_r1" "itemzh_start" "itemzh_end"
      30 mkItemRef
      ⟨[("art_r1", some "5"), ("itemzh_start", some "一"),
        ("itemzh_end", some "四十一")], "第5條第一項至第四十一項".toList, []⟩
      "5" 1 41 (by decide) (by decide) (by decide) (by decide) (by decide) (by decide)).2
      (by decide)
    exact h.trans (by decide)

/-!
## Claim theorems: the document structurer
-/

theorem updateLast_ne_nil (f : α → α) (l : List α) (h : l ≠ []) :
    updateLast f l ≠ [] := by
  cases l with
  | nil => exact absurd rfl h
  | cons a l2 =>
    cases l2 with
    | nil => simp [updateLast]
    | cons b l3 => simp [updateLast]

theorem updateLast_getLast (f : α → α) : ∀ (l : List α),
    (updateLast f l).getLast? = l.getLast?.map f := by
  intro l
  induction l with
  | nil => rfl
  | cons a l ih =>
    cases l with
    | nil => rfl
    | cons b l2 =>
      show (a :: updateLast f (b :: l2)).getLast? = ((a :: b :: l2).getLast?).map f
      rw [List.getLast?_cons_cons, ← ih]
      cases hul : updateLast f (b :: l2) with
      | nil => exact absurd hul (updateLast_ne_nil f (b :: l2) (by simp))
      | cons x xs =>
        exact List.getLast?_cons_cons

theorem treeFlatten_append (cs ds : List PChapter) :
    treeFlatten (cs ++ ds) = treeFlatten cs ++ treeFlatten ds := by
  unfold treeFlatten
  rw [List.map_append, List.flatten_append]

theorem chFlatten_fresh (t : String) : chFlatten ⟨t, [], []⟩ = [] := rfl

theorem chFlatten_pushArt (it : LawItem) (c : PChapter) (h : c.sections = []) :
    chFlatten (chPushArt it c) = chFlatten c ++ [it] := by
  unfold chFlatten chPushArt
  rw [h]
  simp

theorem secsFlat_push (it : LawItem) : ∀ (secs : List PSection), secs ≠ [] →
    ((updateLast (secPush it) secs).map (fun s => s.articles)).flatten =
      (secs.map (fun s => s.articles)).flatten ++ [it] := by
  intro secs
  induction secs with
  | nil => intro h; exact absurd rfl h
  | cons s secs ih =>
    intro _
    cases secs with
    | nil =>
      show ((updateLast (secPush it) [s]).map (fun s => s.articles)).flatten = _
      simp [updateLast, secPush]
    | cons s2 rest =>
      show (((s :: updateLast (secPush it) (s2 :: rest)).map (fun s => s.articles)).flatten) = _
      rw [List.map_cons, List.flatten_cons, ih (by simp)]
      simp [List.append_assoc]

theorem chFlatten_pushSecArt (it : LawItem) (c : PChapter) (h : c.sections ≠ []) :
    chFlatten (chPushSecArt it c) = chFlatten c ++ [it] := by
  unfold chFlatten chPushSecArt
  rw [secsFlat_push it c.sections h, List.append_assoc]

theorem treeFlatten_updateLast_pushArt (it : LawItem) : ∀ (cs : List PChapter),
    cs ≠ [] → (∀ c, cs.getLast? = some c → c.sections = []) →
    treeFlatten (updateLast (chPushArt it) cs) = treeFlatten cs ++ [it] := by
  intro cs
  induction cs with
  | nil => intro h; exact absurd rfl h
  | cons c cs ih =>
    intro _ hlast
    cases cs with
    | nil =>
      show treeFlatten [chPushArt it c] = _
      have hc : c.sections = [] := hlast c (by simp)
      unfold treeFlatten
      simp [chFlatten_pushArt it c hc]
    | cons c2 rest =>
      show treeFlatten (c :: updateLast (chPushArt it) (c2 :: rest)) = _
      unfold treeFlatten
      rw [List.map_cons, List.flatten_cons]
      have := ih (by simp) (fun x hx => hlast x (by rw [List.getLast?_cons_cons]; exact hx))
      unfold treeFlatten at this
      rw [this]
      simp [List.append_assoc]

theorem treeFlatten_updateLast_pushSecArt (it : LawItem) : ∀ (cs : List PChapter)
    (c : PChapter), cs.getLast? = some c → c.sections ≠ [] →
    treeFlatten (updateLast (chPushSecArt it) cs) = treeFlatten cs ++ [it] := by
  intro cs
  induction cs with
  | nil => intro c h; exact absurd h (by simp)
  | cons c0 cs ih =>
    intro c hlast hsec
    cases cs with
    | nil =>
      have hc : c0 = c := by
        rw [List.getLast?_singleton] at hlast
        exact Option.some.inj hlast
      subst hc
      show treeFlatten [chPushSecArt it c0] = _
      unfold treeFlatten
      simp [chFlatten_pushSecArt it c0 hsec]
    | cons c2 rest =>
      show treeFlatten (c0 :: updateLast (chPushSecArt it) (c2 :: rest)) = _
      unfold treeFlatten
      rw [List.map_cons, List.flatten_cons]
      have := ih c (by rw [List.getLast?_cons_cons] at hlast; exact hlast) hsec
      unfold treeFlatten at this
      rw [this]
      simp [List.append_assoc]

theorem treeFlatten_updateLast_congr (f : PChapter → PChapter)
    (hf : ∀ c, chFlatten (f c) = chFlatten c) : ∀ (cs : List PChapter),
    treeFlatten (updateLast f cs) = treeFlatten cs := by
  intro cs
  induction cs with
  | nil => rfl
  | cons c cs ih =>
    cases cs with
    | nil =>
      show treeFlatten [f c] = treeFlatten [c]
      unfold treeFlatten
      simp [hf c]
    | cons c2 rest =>
      show treeFlatten (c :: updateLast f (c2 :: rest)) = _
      unfold treeFlatten
      rw [List.map_cons, List.flatten_cons]
      have := ih
      unfold treeFlatten at this
      rw [this]
      simp

/-- Structural invariant of the structuring loop: the tree flattening
equals the flat list; the `current_ch` flag tracks non-emptiness of the
chapter list; when a section is open the last chapter has a section to
receive articles; when none is open the last chapter has no sections yet
(sections are only ever opened in the most recent chapter). -/
def PLCInv (st : PLCState) : Prop :=
  treeFlatten st.chapters = st.flat ∧
  (st.chOpen = true ↔ st.chapters ≠ []) ∧
  (st.secOpen = true → ∃ c, st.chapters.getLast? = some c ∧ c.sections ≠ []) ∧
  (st.secOpen = false → ∀ c, st.chapters.getLast? = some c → c.sections = [])

theorem PLCInv_init : PLCInv ⟨[], [], false, false, 0⟩ := by
  refine ⟨rfl, by simp, by simp, ?_⟩
  intro _ c hc
  simp at hc

theorem getLast_concat_eq (l : List α) (x : α) : (l ++ [x]).getLast? = some x := by
  simp

/-- Invariant preservation by the article-placement step: the fresh item
lands at the end of both the flat list and the flattened tree. -/
theorem appendArticle_inv (it : LawItem) (st : PLCState) (h : PLCInv st) :
    PLCInv (appendArticle it { st with flat := st.flat ++ [it], count := st.count + 1 }) := by
  obtain ⟨h1, h2, h3, h4⟩ := h
  unfold appendArticle
  dsimp only
  cases hsec : st.secOpen with
  | true =>
    rw [if_pos rfl]
    obtain ⟨c0, hc0, hc0s⟩ := h3 hsec
    have hne : st.chapters ≠ [] := by
      intro hnil
      rw [hnil] at hc0
      exact Option.noConfusion hc0
    refine ⟨?_, ?_, ?_, ?_⟩
    · show treeFlatten (updateLast (chPushSecArt it) st.chapters) = st.flat ++ [it]
      rw [treeFlatten_updateLast_pushSecArt it st.chapters c0 hc0 hc0s, h1]
    · constructor
      · intro _
        exact updateLast_ne_nil _ st.chapters hne
      · intro _
        exact h2.mpr hne
    · intro _
      refine ⟨chPushSecArt it c0, ?_, ?_⟩
      · show (updateLast (chPushSecArt it) st.chapters).getLast? = _
        rw [updateLast_getLast, hc0]
        rfl
      · exact updateLast_ne_nil _ c0.sections hc0s
    · intro hfalse
      exact Bool.noConfusion hfalse
  | false =>
    rw [if_neg (fun hf => Bool.noConfusion hf)]
    cases hch : st.chOpen with
    | true =>
      rw [if_pos rfl]
      have hne : st.chapters ≠ [] := h2.mp hch
      refine ⟨?_, ?_, ?_, ?_⟩
      · show treeFlatten (updateLast (chPushArt it) st.chapters) = st.flat ++ [it]
        rw [treeFlatten_updateLast_pushArt it st.chapters hne (h4 hsec), h1]
      · constructor
        · intro _
          exact updateLast_ne_nil _ st.chapters hne
        · intro _
          rfl
      · intro habs
        exact Bool.noConfusion habs
      · intro _ c hc
        obtain ⟨c0, hc0⟩ := Option.isSome_iff_exists.mp
          (by rw [List.getLast?_isSome]; exact hne)
        have hc2 : (updateLast (chPushArt it) st.chapters).getLast? = some c := hc
        rw [updateLast_getLast, hc0] at hc2
        have hcc : chPushArt it c0 = c := Option.some.inj hc2
        rw [← hcc]
        show c0.sections = []
        exact h4 hsec c0 hc0
    | false =>
      rw [if_neg (fun hf => Bool.noConfusion hf)]
      have hnil : st.chapters = [] := by
        by_cases hn : st.chapters = []
        · exact hn
        · exact absurd (h2.mpr hn) (by rw [hch]; exact Bool.noConfusion)
      refine ⟨?_, ?_, ?_, ?_⟩
      · show treeFlatten (updateLast (chPushArt it) (ensure_chapter "" { st with flat := st.flat ++ [it], count := st.count + 1 }).chapters) = st.flat ++ [it]
        simp only [ensure_chapter]
        rw [hnil, ← h1, hnil]
        rfl
      · constructor
        · intro _
          exact updateLast_ne_nil _ _ (by simp [ensure_chapter])
        · intro _
          rfl
      · intro habs
        exact Bool.noConfusion habs
      · intro _ c hc
        have hc2 : (updateLast (chPushArt it) (ensure_chapter "" { st with flat := st.flat ++ [it], count := st.count + 1 }).chapters).getLast? = some c := hc
        rw [updateLast_getLast] at hc2
        simp only [ensure_chapter] at hc2
        rw [getLast_concat_eq] at hc2
        have hcc : chPushArt it ⟨"", [], []⟩ = c := Option.some.inj hc2
        rw [← hcc]
        rfl

/-- Invariant preservation by one step of the structuring loop. -/
theorem stepNode_inv (summary : Bool) (n : HNode) (st : PLCState) (h : PLCInv st) :
    PLCInv (stepNode summary n st) := by
  obtain ⟨h1, h2, h3, h4⟩ := h
  cases n with
  | otherH => exact ⟨h1, h2, h3, h4⟩
  | chapterH t =>
    refine ⟨?_, ?_, ?_, ?_⟩
    · show treeFlatten (st.chapters ++ [⟨t, [], []⟩]) = st.flat
      rw [treeFlatten_append, h1]
      simp [treeFlatten, chFlatten]
    · simp [stepNode, ensure_chapter]
    · intro hsec
      simp [stepNode, ensure_chapter] at hsec
    · intro _ c hc
      have : (st.chapters ++ [(⟨t, [], []⟩ : PChapter)]).getLast? = some ⟨t, [], []⟩ :=
        getLast_concat_eq st.chapters ⟨t, [], []⟩
      have hce : c = ⟨t, [], []⟩ := by
        have hc2 : (st.chapters ++ [(⟨t, [], []⟩ : PChapter)]).getLast? = some c := hc
        rw [this] at hc2
        exact (Option.some.inj hc2).symm
      rw [hce]
  | sectionH t =>
    show PLCInv (ensure_section t st)
    unfold ensure_section
    cases hch : st.chOpen with
    | true =>
      rw [if_pos rfl]
      have hne : st.chapters ≠ [] := h2.mp hch
      obtain ⟨c0, hc0⟩ := Option.isSome_iff_exists.mp
        (by rw [List.getLast?_isSome]; exact hne)
      refine ⟨?_, ?_, ?_, ?_⟩
      · show treeFlatten (updateLast _ st.chapters) = st.flat
        rw [treeFlatten_updateLast_congr _ (fun c => by simp [chFlatten]) st.chapters]
        exact h1
      · constructor
        · intro _
          exact updateLast_ne_nil _ st.chapters hne
        · intro _
          exact hch
      · intro _
        refine ⟨{ c0 with sections := c0.sections ++ [⟨t, []⟩] }, ?_, by simp⟩
        rw [updateLast_getLast, hc0]
        rfl
      · intro hfalse
        exact Bool.noConfusion hfalse
    | false =>
      rw [if_neg (fun hf => Bool.noConfusion hf)]
      refine ⟨?_, ?_, ?_, ?_⟩
      · show treeFlatten (updateLast _ (st.chapters ++ [⟨"", [], []⟩])) = st.flat
        rw [treeFlatten_updateLast_congr _ (fun c => by simp [chFlatten]),
          treeFlatten_append, h1]
        simp [treeFlatten, chFlatten]
      · constructor
        · intro _
          exact updateLast_ne_nil _ _ (by simp [ensure_chapter])
        · intro _
          rfl
      · intro _
        refine ⟨{ (⟨"", [], []⟩ : PChapter) with sections := [⟨t, []⟩] }, ?_, by simp⟩
        show (updateLast _ (ensure_chapter "" st).chapters).getLast? = _
        rw [updateLast_getLast]
        simp only [ensure_chapter]
        rw [getLast_concat_eq]
        rfl
      · intro hfalse
        exact Bool.noConfusion hfalse
  | rowH noA artBox =>
    cases noA with
    | none => exact ⟨h1, h2, h3, h4⟩
    | some na =>
      cases artBox with
      | none => exact ⟨h1, h2, h3, h4⟩
      | some divs =>
        exact appendArticle_inv _ st ⟨h1, h2, h3, h4⟩

theorem plcLoop_inv (summary : Bool) (maxA : Nat) : ∀ (ns : List HNode) (st : PLCState),
    PLCInv st → PLCInv (plcLoop summary maxA ns st) := by
  intro ns
  induction ns with
  | nil => intro st h; exact h
  | cons n ns ih =>
    intro st h
    show PLCInv (if 0 < maxA ∧ maxA ≤ st.count then st
      else plcLoop summary maxA ns (stepNode summary n st))
    split
    · exact h
    · exact ih (stepNode summary n st) (stepNode_inv summary n st h)

/-- Membership in a chapter's flattening survives pushing another article
into its last section. -/
theorem secsFlat_mono (x : LawItem) (it : LawItem) : ∀ (secs : List PSection),
    it ∈ (secs.map (fun s => s.articles)).flatten →
    it ∈ ((updateLast (secPush x) secs).map (fun s => s.articles)).flatten := by
  intro secs
  induction secs with
  | nil => intro h; cases h
  | cons s secs ih =>
    intro h
    cases secs with
    | nil =>
      show it ∈ (([secPush x s]).map (fun s => s.articles)).flatten
      simp only [List.map_cons, List.map_nil, List.flatten] at h ⊢
      simp only [secPush]
      simp at h ⊢
      exact Or.inl h
    | cons s2 rest =>
      show it ∈ ((s :: updateLast (secPush x) (s2 :: rest)).map (fun s => s.articles)).flatten
      rw [List.map_cons, List.flatten_cons] at h ⊢
      rcases List.mem_append.mp h with h1 | h2
      · exact List.mem_append_left _ h1
      · exact List.mem_append_right _ (ih h2)

theorem chFlatten_mono_pushArt (x it : LawItem) (c : PChapter)
    (h : it ∈ chFlatten c) : it ∈ chFlatten (chPushArt x c) := by
  unfold chFlatten at h ⊢
  unfold chPushArt
  rcases List.mem_append.mp h with h1 | h2
  · exact List.mem_append_left _ (List.mem_append_left _ h1)
  · exact List.mem_append_right _ h2

theorem chFlatten_mono_pushSecArt (x it : LawItem) (c : PChapter)
    (h : it ∈ chFlatten c) : it ∈ chFlatten (chPushSecArt x c) := by
  unfold chFlatten at h ⊢
  unfold chPushSecArt
  rcases List.mem_append.mp h with h1 | h2
  · exact List.mem_append_left _ h1
  · exact List.mem_append_right _ (secsFlat_mono x it c.sections h2)

/-- The head chapter of the output contains a given article under a given
empty title, together with the recorded row data. -/
def HeadW (st : PLCState) (na : NoAnchor) (divs : List LineDiv) (summary : Bool) : Prop :=
  ∃ c rest, st.chapters = c :: rest ∧ c.title = "" ∧
    ∃ it ∈ chFlatten c, it.flno = String.mk (pyStrip na.nameAttr.toList) ∧
      it.no_text = na.text ∧ it.text_lines = buildLines summary divs

/-- Pre-heading invariant: no chapter heading has been seen, so the chapter
list is empty or a single synthesized empty-titled chapter. -/
def PreInv (st : PLCState) : Prop :=
  PLCInv st ∧ (st.chapters = [] ∨ ∃ c, st.chapters = [c] ∧ c.title = "")

/-- The `item` dict built by the structuring loop for one accepted article
row (identical to the record built inline by `stepNode`). -/
def rowItem (summary : Bool) (na : NoAnchor) (divs : List LineDiv)
    (st : PLCState) : LawItem :=
  { flno := String.mk (pyStrip na.nameAttr.toList)
    no_text := na.text
    text_lines := buildLines summary divs
    chapter := curChapterTitle st
    sectionTitle := curSectionTitle st
    truncated := summary && decide ((buildLines summary divs).length < divs.length) }

/-- The state after recording an accepted row in the flat list, before tree
placement. -/
def rowStepState (summary : Bool) (na : NoAnchor) (divs : List LineDiv)
    (st : PLCState) : PLCState :=
  { st with flat := st.flat ++ [rowItem summary na divs st], count := st.count + 1 }

/-- Shape of the chapter list after article placement, by current flags. -/
theorem appendArticle_chapters_cases (it : LawItem) (s : PLCState) :
    (s.secOpen = true ∧
      (appendArticle it s).chapters = updateLast (chPushSecArt it) s.chapters) ∨
    (s.secOpen = false ∧ s.chOpen = true ∧
      (appendArticle it s).chapters = updateLast (chPushArt it) s.chapters) ∨
    (s.secOpen = false ∧ s.chOpen = false ∧
      (appendArticle it s).chapters =
        updateLast (chPushArt it) (s.chapters ++ [⟨"", [], []⟩])) := by
  unfold appendArticle
  cases hsec : s.secOpen with
  | true =>
    rw [if_pos rfl]
    exact Or.inl ⟨rfl, rfl⟩
  | false =>
    rw [if_neg (fun hf => Bool.noConfusion hf)]
    cases hch : s.chOpen with
    | true =>
      rw [if_pos rfl]
      exact Or.inr (Or.inl ⟨rfl, rfl, rfl⟩)
    | false =>
      rw [if_neg (fun hf => Bool.noConfusion hf)]
      exact Or.inr (Or.inr ⟨rfl, rfl, rfl⟩)

/-- Shape of the chapter list after a section heading, by the chapter
flag. -/
theorem ensure_section_chapters_cases (t : String) (st : PLCState) :
    (st.chOpen = true ∧ (ensure_section t st).chapters =
      updateLast (fun c => { c with sections := c.sections ++ [⟨t, []⟩] }) st.chapters) ∨
    (st.chOpen = false ∧ (ensure_section t st).chapters =
      updateLast (fun c => { c with sections := c.sections ++ [⟨t, []⟩] })
        (st.chapters ++ [⟨"", [], []⟩])) := by
  unfold ensure_section
  cases hch : st.chOpen with
  | true =>
    rw [if_pos rfl]
    exact Or.inl ⟨rfl, rfl⟩
  | false =>
    rw [if_neg (fun hf => Bool.noConfusion hf)]
    exact Or.inr ⟨rfl, rfl⟩

theorem preInv_step (summary : Bool) (n : HNode) (st : PLCState)
    (hn : ∀ t, n ≠ HNode.chapterH t) (h : PreInv st) : PreInv (stepNode summary n st) := by
  obtain ⟨hinv, hpre⟩ := h
  refine ⟨stepNode_inv summary n st hinv, ?_⟩
  cases n with
  | chapterH t => exact absurd rfl (hn t)
  | otherH => exact hpre
  | sectionH t =>
    have hstep : (stepNode summary (HNode.sectionH t) st).chapters =
        (ensure_section t st).chapters := rfl
    rw [hstep]
    rcases ensure_section_chapters_cases t st with ⟨hch, hcs⟩ | ⟨hch, hcs⟩
    · rcases hpre with hnil | ⟨c, hc, htitle⟩
      · exact absurd hnil (hinv.2.1.mp hch)
      · rw [hcs, hc]
        exact Or.inr ⟨_, rfl, htitle⟩
    · have hnil : st.chapters = [] := by
        by_cases hn2 : st.chapters = []
        · exact hn2
        · exact absurd (hinv.2.1.mpr hn2) (by rw [hch]; exact Bool.noConfusion)
      rw [hcs, hnil]
      exact Or.inr ⟨_, rfl, rfl⟩
  | rowH noA artBox =>
    cases noA with
    | none => exact hpre
    | some na =>
      cases artBox with
      | none => exact hpre
      | some divs =>
        have hstep : (stepNode summary (HNode.rowH (some na) (some divs)) st).chapters =
            (appendArticle (rowItem summary na divs st)
              (rowStepState summary na divs st)).chapters := rfl
        rw [hstep]
        rcases appendArticle_chapters_cases (rowItem summary na divs st)
            (rowStepState summary na divs st) with
          ⟨hsec, hcs⟩ | ⟨hsec, hch, hcs⟩ | ⟨hsec, hch, hcs⟩
        · rw [hcs]
          show updateLast _ st.chapters = [] ∨
            ∃ c, updateLast _ st.chapters = [c] ∧ c.title = ""
          rcases hpre with hnil | ⟨c, hc, htitle⟩
          · rw [hnil]
            exact Or.inl rfl
          · rw [hc]
            exact Or.inr ⟨_, rfl, htitle⟩
        · rw [hcs]
          show updateLast _ st.chapters = [] ∨
            ∃ c, updateLast _ st.chapters = [c] ∧ c.title = ""
          rcases hpre with hnil | ⟨c, hc, htitle⟩
          · rw [hnil]
            exact Or.inl rfl
          · rw [hc]
            exact Or.inr ⟨_, rfl, htitle⟩
        · have hnil : st.chapters = [] := by
            by_cases hn2 : st.chapters = []
            · exact hn2
            · exact absurd (hinv.2.1.mpr hn2) (by
                have hx : st.chOpen = false := hch
                rw [hx]
                exact Bool.noConfusion)
          rw [hcs]
          show updateLast _ (st.chapters ++ [⟨"", [], []⟩]) = [] ∨
            ∃ c, updateLast _ (st.chapters ++ [⟨"", [], []⟩]) = [c] ∧ c.title = ""
          rw [hnil]
          exact Or.inr ⟨_, rfl, rfl⟩

/-- Processing an article row before any chapter heading places its item
under the (synthesized) empty-titled head chapter. -/
theorem row_creates_head (summary : Bool) (na : NoAnchor) (divs : List LineDiv)
    (st : PLCState) (h : PreInv st) :
    HeadW (stepNode summary (HNode.rowH (some na) (some divs)) st) na divs summary := by
  obtain ⟨⟨h1, h2, h3, h4⟩, hpre⟩ := h
  have hstep : (stepNode summary (HNode.rowH (some na) (some divs)) st).chapters =
      (appendArticle (rowItem summary na divs st) (rowStepState summary na divs st)).chapters :=
    rfl
  unfold HeadW
  rw [hstep]
  rcases appendArticle_chapters_cases (rowItem summary na divs st)
      (rowStepState summary na divs st) with
    ⟨hsec, hcs⟩ | ⟨hsec, hch, hcs⟩ | ⟨hsec, hch, hcs⟩
  · have hsec2 : st.secOpen = true := hsec
    obtain ⟨c0, hc0, hc0s⟩ := h3 hsec2
    have hne : st.chapters ≠ [] := by
      intro hnil
      rw [hnil] at hc0
      exact Option.noConfusion hc0
    rcases hpre with hnil | ⟨c, hc, htitle⟩
    · exact absurd hnil hne
    · have hcc : c0 = c := by
        rw [hc, List.getLast?_singleton] at hc0
        exact (Option.some.inj hc0).symm
      have hcs2 : (appendArticle (rowItem summary na divs st)
          (rowStepState summary na divs st)).chapters =
          updateLast (chPushSecArt (rowItem summary na divs st)) st.chapters := hcs
      rw [hcs2, hc]
      refine ⟨chPushSecArt (rowItem summary na divs st) c, [], rfl, htitle, ?_⟩
      refine ⟨rowItem summary na divs st, ?_, rfl, rfl, rfl⟩
      show rowItem summary na divs st ∈ chFlatten (chPushSecArt _ c)
      unfold chFlatten chPushSecArt
      have hcsec : c.sections ≠ [] := by
        rw [← hcc]
        exact hc0s
      rw [secsFlat_push _ c.sections hcsec]
      exact List.mem_append_right _ (List.mem_append_right _ (by simp))
  · have hch2 : st.chOpen = true := hch
    have hne : st.chapters ≠ [] := h2.mp hch2
    rcases hpre with hnil | ⟨c, hc, htitle⟩
    · exact absurd hnil hne
    · have hcs2 : (appendArticle (rowItem summary na divs st)
          (rowStepState summary na divs st)).chapters =
          updateLast (chPushArt (rowItem summary na divs st)) st.chapters := hcs
      rw [hcs2, hc]
      refine ⟨chPushArt (rowItem summary na divs st) c, [], rfl, htitle, ?_⟩
      refine ⟨rowItem summary na divs st, ?_, rfl, rfl, rfl⟩
      show rowItem summary na divs st ∈ chFlatten (chPushArt _ c)
      unfold chFlatten chPushArt
      exact List.mem_append_left _ (List.mem_append_right _ (by simp))
  · have hnil : st.chapters = [] := by
      by_cases hn2 : st.chapters = []
      · exact hn2
      · exact absurd (h2.mpr hn2) (by
          have hx : st.chOpen = false := hch
          rw [hx]
          exact Bool.noConfusion)
    have hcs2 : (appendArticle (rowItem summary na divs st)
        (rowStepState summary na divs st)).chapters =
        updateLast (chPushArt (rowItem summary na divs st))
          (st.chapters ++ [⟨"", [], []⟩]) := hcs
    rw [hcs2, hnil]
    refine ⟨chPushArt (rowItem summary na divs st) ⟨"", [], []⟩, [], rfl, rfl, ?_⟩
    refine ⟨rowItem summary na divs st, ?_, rfl, rfl, rfl⟩
    simp [chFlatten, chPushArt]

/-- The head chapter, its empty title and the recorded item survive every
later step of the structuring loop. -/
theorem headW_step (summary : Bool) (n : HNode) (st : PLCState) (na : NoAnchor)
    (divs : List LineDiv) (summary0 : Bool) (hinv : PLCInv st)
    (h : HeadW st na divs summary0) : HeadW (stepNode summary n st) na divs summary0 := by
  obtain ⟨c, rest, hch, htitle, it, hit, hp1, hp2, hp3⟩ := h
  cases n with
  | otherH => exact ⟨c, rest, hch, htitle, it, hit, hp1, hp2, hp3⟩
  | chapterH t =>
    refine ⟨c, rest ++ [⟨t, [], []⟩], ?_, htitle, it, hit, hp1, hp2, hp3⟩
    show st.chapters ++ [⟨t, [], []⟩] = c :: (rest ++ [⟨t, [], []⟩])
    rw [hch]
    rfl
  | sectionH t =>
    have hstep : (stepNode summary (HNode.sectionH t) st).chapters =
        (ensure_section t st).chapters := rfl
    unfold HeadW
    rw [hstep]
    have hne : st.chapters ≠ [] := by
      rw [hch]
      simp
    rcases ensure_section_chapters_cases t st with ⟨_, hcs⟩ | ⟨hchf, _⟩
    · rw [hcs, hch]
      cases rest with
      | nil =>
        refine ⟨_, [], rfl, htitle, it, ?_, hp1, hp2, hp3⟩
        show it ∈ chFlatten { c with sections := c.sections ++ [⟨t, []⟩] }
        unfold chFlatten at hit ⊢
        simp only [List.map_append, List.flatten_append]
        rcases List.mem_append.mp hit with hl | hr
        · exact List.mem_append_left _ hl
        · exact List.mem_append_right _ (List.mem_append_left _ hr)
      | cons r rs =>
        exact ⟨c, updateLast _ (r :: rs), rfl, htitle, it, hit, hp1, hp2, hp3⟩
    · exact absurd (hinv.2.1.mpr hne) (by rw [hchf]; exact Bool.noConfusion)
  | rowH noA artBox =>
    cases noA with
    | none => exact ⟨c, rest, hch, htitle, it, hit, hp1, hp2, hp3⟩
    | some na2 =>
      cases artBox with
      | none => exact ⟨c, rest, hch, htitle, it, hit, hp1, hp2, hp3⟩
      | some divs2 =>
        have hstep : (stepNode summary (HNode.rowH (some na2) (some divs2)) st).chapters =
            (appendArticle (rowItem summary na2 divs2 st)
              (rowStepState summary na2 divs2 st)).chapters := rfl
        unfold HeadW
        rw [hstep]
        have hne : st.chapters ≠ [] := by
          rw [hch]
          simp
        rcases appendArticle_chapters_cases (rowItem summary na2 divs2 st)
            (rowStepState summary na2 divs2 st) with
          ⟨_, hcs⟩ | ⟨_, _, hcs⟩ | ⟨_, hchf, hcs⟩
        · have hcs2 : (appendArticle (rowItem summary na2 divs2 st)
              (rowStepState summary na2 divs2 st)).chapters =
              updateLast (chPushSecArt (rowItem summary na2 divs2 st)) st.chapters := hcs
          rw [hcs2, hch]
          cases rest with
          | nil =>
            exact ⟨_, [], rfl, htitle, it,
              chFlatten_mono_pushSecArt _ it c hit, hp1, hp2, hp3⟩
          | cons r rs =>
            exact ⟨c, updateLast _ (r :: rs), rfl, htitle, it, hit, hp1, hp2, hp3⟩
        · have hcs2 : (appendArticle (rowItem summary na2 divs2 st)
              (rowStepState summary na2 divs2 st)).chapters =
              updateLast (chPushArt (rowItem summary na2 divs2 st)) st.chapters := hcs
          rw [hcs2, hch]
          cases rest with
          | nil =>
            exact ⟨_, [], rfl, htitle, it,
              chFlatten_mono_pushArt _ it c hit, hp1, hp2, hp3⟩
          | cons r rs =>
            exact ⟨c, updateLast _ (r :: rs), rfl, htitle, it, hit, hp1, hp2, hp3⟩
        · exact absurd (hinv.2.1.mpr hne) (by
            have hx : st.chOpen = false := hchf
            rw [hx]
            exact Bool.noConfusion)

/-- With no article cap the structuring loop is a plain fold. -/
theorem plcLoop_zero (summary : Bool) : ∀ (ns : List HNode) (st : PLCState),
    plcLoop summary 0 ns st = ns.foldl (fun s n => stepNode summary n s) st := by
  intro ns
  induction ns with
  | nil => intro st; rfl
  | cons n ns ih =>
    intro st
    show (if 0 < 0 ∧ 0 ≤ st.count then st
      else plcLoop summary 0 ns (stepNode summary n st)) = _
    rw [if_neg (fun hf => Nat.lt_irrefl 0 hf.1)]
    rw [List.foldl_cons]
    exact ih (stepNode summary n st)

theorem foldl_preInv (summary : Bool) : ∀ (pre : List HNode) (st : PLCState),
    PreInv st → (∀ n ∈ pre, ∀ t, n ≠ HNode.chapterH t) →
    PreInv (pre.foldl (fun s n => stepNode summary n s) st) := by
  intro pre
  induction pre with
  | nil => intro st h _; exact h
  | cons n pre ih =>
    intro st h hn
    rw [List.foldl_cons]
    exact ih (stepNode summary n st)
      (preInv_step summary n st (hn n (by simp)) h)
      (fun x hx => hn x (by simp [hx]))

theorem foldl_headW (summary summary0 : Bool) (na : NoAnchor) (divs : List LineDiv) :
    ∀ (post : List HNode) (st : PLCState), PLCInv st → HeadW st na divs summary0 →
    HeadW (post.foldl (fun s n => stepNode summary n s) st) na divs summary0 := by
  intro post
  induction post with
  | nil => intro st _ h; exact h
  | cons n post ih =>
    intro st hinv h
    rw [List.foldl_cons]
    exact ih (stepNode summary n st) (stepNode_inv summary n st hinv)
      (headW_step summary n st na divs summary0 hinv h)

/-- Claim C8: the structurer places every accepted article exactly once in
the chapter tree and once in the flat list, with the in-order flattening of
the tree equal to the flat list (both views list articles in source
order); and an article row processed before any chapter heading is placed
under the synthesized head chapter whose title is the empty string, with
its row data recorded. -/
theorem parse_law_content_structure :
    (∀ (ns : List HNode) (summary : Bool) (maxA : Nat) (res : PLCResult),
      parse_law_content (some ns) summary maxA = Except.ok res →
      treeFlatten res.chapters = res.flat_articles) ∧
    (∀ (pre post : List HNode) (na : NoAnchor) (divs : List LineDiv)
       (summary : Bool) (res : PLCResult),
      (∀ n ∈ pre, ∀ t, n ≠ HNode.chapterH t) →
      parse_law_content (some (pre ++ HNode.rowH (some na) (some divs) :: post))
        summary 0 = Except.ok res →
      ∃ c rest, res.chapters = c :: rest ∧ c.title = "" ∧
        ∃ it ∈ chFlatten c, it.flno = String.mk (pyStrip na.nameAttr.toList) ∧
          it.no_text = na.text ∧ it.text_lines = buildLines summary divs) := by
  constructor
  · intro ns summary maxA res h
    unfold parse_law_content at h
    have hres := Except.ok.inj h
    rw [← hres]
    exact (plcLoop_inv summary maxA ns ⟨[], [], false, false, 0⟩ PLCInv_init).1
  · intro pre post na divs summary res hpre h
    unfold parse_law_content at h
    have hres := Except.ok.inj h
    have hfold : plcLoop summary 0 (pre ++ HNode.rowH (some na) (some divs) :: post)
        ⟨[], [], false, false, 0⟩ =
        post.foldl (fun s n => stepNode summary n s)
          (stepNode summary (HNode.rowH (some na) (some divs))
            (pre.foldl (fun s n => stepNode summary n s) ⟨[], [], false, false, 0⟩)) := by
      rw [plcLoop_zero, List.foldl_append, List.foldl_cons]
    have hPre : PreInv (pre.foldl (fun s n => stepNode summary n s)
        ⟨[], [], false, false, 0⟩) :=
      foldl_preInv summary pre ⟨[], [], false, false, 0⟩ ⟨PLCInv_init, Or.inl rfl⟩ hpre
    have hrowInv : PLCInv (stepNode summary (HNode.rowH (some na) (some divs))
        (pre.foldl (fun s n => stepNode summary n s) ⟨[], [], false, false, 0⟩)) :=
      stepNode_inv summary _ _ hPre.1
    have hrow : HeadW (stepNode summary (HNode.rowH (some na) (some divs))
        (pre.foldl (fun s n => stepNode summary n s) ⟨[], [], false, false, 0⟩))
        na divs summary :=
      row_creates_head summary na divs _ hPre
    have hfinal := foldl_headW summary summary na divs post _ hrowInv hrow
    obtain ⟨c, rest, hc, htitle, it, hit, hp⟩ := hfinal
    refine ⟨c, rest, ?_, htitle, it, hit, hp⟩
    rw [← hres]
    show (plcLoop summary 0 _ _).chapters = c :: rest
    rw [hfold]
    exact hc

/-- Witness for claim C8: a single article row with no preceding heading
lands under the synthesized empty-titled chapter. -/
theorem parse_law_content_structure_witness :
    ∃ c rest,
      ({ chapters := [⟨"", [], [⟨"7", "第 7 條", ["內容"], none, none, false⟩]⟩],
         flat_articles := [⟨"7", "第 7 條", ["內容"], none, none, false⟩] } :
         PLCResult).chapters = c :: rest ∧ c.title = "" ∧
      ∃ it ∈ chFlatten c, it.flno = String.mk (pyStrip ("7" : String).toList) ∧
        it.no_text = "第 7 條" ∧
        it.text_lines = buildLines false [⟨["line-0002"], "內容"⟩] :=
  parse_law_content_structure.2 [] [] ⟨"7", "第 7 條"⟩ [⟨["line-0002"], "內容"⟩]
    false _ (fun n hn => absurd hn (List.not_mem_nil n)) rfl
